import Mathlib

/-!
Team Tasks — verification of the workflow state engine

Shallow embedding of `src/scripts/task_manager.py` (the single source file of
the repository).  Python dicts are modelled as association lists
(`List (String × _)`) because Python dicts preserve insertion order, which the
code relies on (ready-set order, DFS traversal order, display order).
Timestamps are opaque strings supplied as an explicit `now` parameter
(the code's `now_iso()` collaborator).  The persistence layer (`load_project`
/ `save_project`) is outside the core per the spec; commands here are pure
state transformers returning `Except` where the Python prints an error and
exits without saving.
-/

namespace TeamTasks

/-- Stage/task status strings `"pending" | "in-progress" | "done" | "failed" | "skipped"`
(`cmd_update` validates membership in this set, so the inductive is faithful). -/
inductive Status
  | pending
  | inProgress
  | done
  | failed
  | skipped
deriving DecidableEq, Repr

/-- Rendering used in log events (`f"status: {old} → {new}"`). -/
def Status.str : Status → String
  | .pending => "pending"
  | .inProgress => "in-progress"
  | .done => "done"
  | .failed => "failed"
  | .skipped => "skipped"

/-- Project status strings `"active" | "completed" | "blocked"`. -/
inductive ProjStatus
  | active
  | completed
  | blocked
deriving DecidableEq, Repr

/-- One entry of a stage's `logs` list: `{"time": ..., "event": ...}`. -/
structure LogEntry where
  time : String
  event : String
deriving DecidableEq, Repr

/-- A stage/task record as built by `make_stage` and mutated by the commands.
`dependsOn` is `none` when the key is absent (linear-mode stages) and
`some l` when present (DAG-mode stages). -/
structure Stage where
  agent : String
  status : Status
  task : String
  startedAt : Option String
  completedAt : Option String
  output : String
  logs : List LogEntry
  dependsOn : Option (List String)
deriving DecidableEq, Repr

/-- `make_stage(agent_id, task, depends_on)`. -/
def make_stage (agentId : String) (task : String := "") (dependsOn : Option (List String) := none) :
    Stage :=
  { agent := agentId
    status := .pending
    task := task
    startedAt := none
    completedAt := none
    output := ""
    logs := []
    dependsOn := dependsOn }

/-- The `stages` mapping: Python dict task-id → stage, insertion ordered. -/
abbrev Stages := List (String × Stage)

/-- The key list of the stage mapping (Python `data["stages"]` iteration order). -/
def stageKeys (stages : Stages) : List String :=
  stages.map Prod.fst

/-- `data["stages"].get(node, {}).get("dependsOn", [])`. -/
def depsOf (stages : Stages) (node : String) : List String :=
  match stages.lookup node with
  | none => []
  | some st => st.dependsOn.getD []

/-- Root record of a DAG-mode project (`cmd_init`, `mode == "dag"`). -/
structure DagData where
  project : String
  goal : String
  created : String
  updated : String
  status : ProjStatus
  workspace : String
  stages : Stages
deriving DecidableEq, Repr

/-- Root record of a linear-mode project (`cmd_init`, `mode == "linear"`). -/
structure LinearData where
  project : String
  goal : String
  created : String
  updated : String
  status : ProjStatus
  workspace : String
  pipeline : List String
  currentStage : Option String
  stages : Stages
deriving DecidableEq, Repr

/-- `compute_ready_tasks`: task IDs whose status is pending and whose
dependencies all have status done or skipped (a dependency missing from the
mapping yields `None`, which is not in `("done", "skipped")`, hence blocks). -/
def compute_ready_tasks (stages : Stages) : List String :=
  (stages.filter fun p =>
    p.2.status == Status.pending &&
    (p.2.dependsOn.getD []).all fun d =>
      match stages.lookup d with
      | some st => st.status == Status.done || st.status == Status.skipped
      | none => false).map Prod.fst

/-- `any(s == "failed" for s in statuses)` over the stage mapping. -/
def anyFailed (stages : Stages) : Bool :=
  stages.any fun p => p.2.status == Status.failed

/-- `any(s == "in-progress" for s in statuses)`. -/
def anyInProgress (stages : Stages) : Bool :=
  stages.any fun p => p.2.status == Status.inProgress

/-- `all(s in ("done", "skipped") for s in statuses)`. -/
def allDoneOrSkipped (stages : Stages) : Bool :=
  stages.all fun p => p.2.status == Status.done || p.2.status == Status.skipped

/-- `any(s in ("in-progress", "pending") for s in statuses)`. -/
def anyInProgressOrPending (stages : Stages) : Bool :=
  stages.any fun p => p.2.status == Status.inProgress || p.2.status == Status.pending

/-- `check_dag_completion(data)`: updates `data["status"]` from the task states.
Note the failed-branch writes nothing when a ready task or an in-progress task
remains, and the final `elif` writes nothing when it does not fire. -/
def check_dag_completion (data : DagData) : DagData :=
  if allDoneOrSkipped data.stages then
    { data with status := .completed }
  else if anyFailed data.stages then
    -- `ready = compute_ready_tasks(data)`:
    if (compute_ready_tasks data.stages).isEmpty && !anyInProgress data.stages then
      { data with status := .blocked }
    else
      data
  else if anyInProgressOrPending data.stages then
    { data with status := .active }
  else
    data

/-- The spec's pure aggregate-status derivation (§4.1 of the spec), written
from the spec's words for comparison with `check_dag_completion`:
Completed iff every stage is Done or Skipped; else Blocked iff some stage is
Failed and the ready set is empty and no stage is InProgress; else Active. -/
def dagDerivedStatus (stages : Stages) : ProjStatus :=
  if allDoneOrSkipped stages then .completed
  else if anyFailed stages && (compute_ready_tasks stages).isEmpty
          && !anyInProgress stages then .blocked
  else .active

/-- The per-stage mutation performed by `cmd_update` (lines 651–663):
set the status, stamp `startedAt` on in-progress when unset, stamp
`completedAt` on every entry into a terminal status, append a log entry. -/
def applyStatusUpdate (stage : Stage) (newStatus : Status) (now : String) : Stage :=
  let stage1 := { stage with status := newStatus }
  let stage2 :=
    if newStatus == Status.inProgress && stage1.startedAt.isNone then
      { stage1 with startedAt := some now }
    else if newStatus == Status.done || newStatus == Status.failed
            || newStatus == Status.skipped then
      { stage1 with completedAt := some now }
    else
      stage1
  { stage2 with
      logs := stage2.logs ++
        [⟨now, "status: " ++ stage.status.str ++ " → " ++ newStatus.str⟩] }

/-- In-place dict entry update `data["stages"][stage_id] = ...` for an existing key. -/
def setStage (stages : Stages) (stageId : String) (st : Stage) : Stages :=
  stages.map fun p => if p.1 == stageId then (p.1, st) else p

/-- `cmd_update` on a DAG project (mode checks are modelled separately, see
`gate_update`): look the stage up, apply the per-stage mutation, then
`check_dag_completion` and stamp `updated`. -/
def cmd_update_dag (data : DagData) (stageId : String) (newStatus : Status) (now : String) :
    Except String DagData :=
  match data.stages.lookup stageId with
  | none => .error ("stage '" ++ stageId ++ "' not found")
  | some stage =>
    let stage' := applyStatusUpdate stage newStatus now
    let data1 := { data with stages := setStage data.stages stageId stage' }
    let data2 := check_dag_completion data1
    .ok { data2 with updated := now }

/-- `cmd_update` on a linear project: apply the per-stage mutation, then the
auto-advance logic — on `done`, compute the Python index sentinel
`idx = pipeline.index(stage_id) if stage_id in pipeline else -1` as an
integer and replay the two guards `idx >= 0 and idx < len(pipeline) - 1`
(advance the cursor) and `idx == len(pipeline) - 1` (complete the project);
note the second guard also fires at `idx = -1` when the pipeline is empty,
since then `len(pipeline) - 1 = -1`.  On `failed`, set the project status
to blocked. -/
def cmd_update_linear (data : LinearData) (stageId : String) (newStatus : Status) (now : String) :
    Except String LinearData :=
  match data.stages.lookup stageId with
  | none => .error ("stage '" ++ stageId ++ "' not found")
  | some stage =>
    let stage' := applyStatusUpdate stage newStatus now
    let data1 := { data with stages := setStage data.stages stageId stage' }
    let data2 :=
      if newStatus == Status.done then
        let idx : Int :=
          if stageId ∈ data1.pipeline then (data1.pipeline.indexOf stageId : Int) else -1
        if 0 ≤ idx ∧ idx < (data1.pipeline.length : Int) - 1 then
          { data1 with currentStage := data1.pipeline.get? (idx.toNat + 1) }
        else if idx = (data1.pipeline.length : Int) - 1 then
          { data1 with status := .completed, currentStage := none }
        else
          data1
      else if newStatus == Status.failed then
        { data1 with status := .blocked }
      else
        data1
    .ok { data2 with updated := now }

/-- The per-stage part of `cmd_reset` (lines 855–865): status back to pending,
both timestamps cleared, output cleared, a "reset to pending" log appended. -/
def resetStage (st : Stage) (now : String) : Stage :=
  { st with
      status := .pending
      startedAt := none
      completedAt := none
      output := ""
      logs := st.logs ++ [⟨now, "reset to pending"⟩] }

/-! ## C1 — linear-mode cursor advancement -/

/-- A concrete linear project: pipeline `[a, b]`, cursor on `a`, both pending. -/
def linEx : LinearData :=
  { project := "p1"
    goal := ""
    created := "t0"
    updated := "t0"
    status := .active
    workspace := ""
    pipeline := ["a", "b"]
    currentStage := some "a"
    stages := [("a", make_stage "a"), ("b", make_stage "b")] }

/-! ## Cycle detection (`detect_cycles`) -/

/-- The DFS colours `WHITE, GRAY, BLACK = 0, 1, 2`. -/
inductive Color
  | white
  | gray
  | black
deriving DecidableEq, Repr

/-- The `for dep in ... dependsOn` loop of `dfs`: skip dependencies that are
not stage keys (`dep not in color`; the colour dict's key set is the stage key
set throughout); a gray dependency closes a cycle and returns
`path[path.index(dep):]`; a white dependency is visited recursively through
`dfsRec` (the nested `dfs` call, abstracted so the loop is structurally
recursive on the dependency list), propagating a found cycle — `[]` means
"no cycle", as in the Python where an empty list is falsy.  After the loop,
pop the path and colour the node black. -/
def dfsDeps (stages : Stages)
    (dfsRec : (String → Color) → List String → String →
      List String × (String → Color) × List String) :
    List String → (String → Color) → List String → String →
    List String × (String → Color) × List String
  | [], color, path, node =>
    ([], Function.update color node Color.black, path.dropLast)
  | dep :: rest, color, path, node =>
    if dep ∉ stageKeys stages then
      dfsDeps stages dfsRec rest color path node
    else if color dep = Color.gray then
      (path.drop (path.indexOf dep), color, path)
    else if color dep = Color.white then
      match dfsRec color path dep with
      | ([], color2, path2) => dfsDeps stages dfsRec rest color2 path2 node
      | (cyc, color2, path2) => (cyc, color2, path2)
    else
      dfsDeps stages dfsRec rest color path node

/-- One `dfs(node)` call of `detect_cycles`: colour the node gray, push it on
the path and walk its `dependsOn` list.  The result triple is (returned
cycle, colour map, path).  `fuel` bounds the recursion depth; it is spent
once per node entry and `detect_cycles` supplies `|stages| + 1`, which is
never exhausted because every entered node turns from white to gray
(`dfs_spec`). -/
def dfsGo (stages : Stages) : Nat → (String → Color) → List String → String →
    List String × (String → Color) × List String
  | 0, color, path, _ => ([], color, path)
  | fuel + 1, color, path, node =>
    dfsDeps stages (fun c p n => dfsGo stages fuel c p n) (depsOf stages node)
      (Function.update color node Color.gray) (path ++ [node]) node

/-- The `for tid in data["stages"]` loop of `detect_cycles`: run `dfs` from
every still-white key in insertion order, returning the first cycle found. -/
def detectCyclesGo (stages : Stages) (fuel : Nat) :
    List String → (String → Color) → List String → List String
  | [], _, _ => []
  | tid :: rest, color, path =>
    if color tid = Color.white then
      match dfsGo stages fuel color path tid with
      | ([], color2, path2) => detectCyclesGo stages fuel rest color2 path2
      | (cyc, _, _) => cyc
    else
      detectCyclesGo stages fuel rest color path

/-- `detect_cycles(data)`: three-colour DFS over the graph induced by
`dependsOn`, all colours initially white, empty path. -/
def detect_cycles (stages : Stages) : List String :=
  detectCyclesGo stages (stages.length + 1) (stageKeys stages) (fun _ => Color.white) []

/-! ## `cmd_add` and `cmd_init` -/

/-- Outcome of `cmd_add`: the Python prints an error and exits without saving
on the three failure paths; on the cycle path it first rolls the tentative
insertion back (`del data["stages"][task_id]`), so the rolled-back record is
carried on `cycleDetected` for inspection. -/
inductive AddResult
  | ok (data : DagData)
  | alreadyExists
  | depNotFound (dep : String)
  | cycleDetected (cycle : List String) (data : DagData)
deriving DecidableEq, Repr

/-- `cmd_add` on a DAG project (mode gates modelled separately): duplicate
check, dependency-existence check (first missing dependency reported),
tentative insertion, cycle check with rollback. -/
def cmd_add (data : DagData) (taskId : String) (agent : Option String)
    (dependsOn : List String) (desc : String) (now : String) : AddResult :=
  if taskId ∈ stageKeys data.stages then .alreadyExists
  else
    match dependsOn.find? (fun d => decide (d ∉ stageKeys data.stages)) with
    | some dep => .depNotFound dep
    | none =>
      let stages1 := data.stages ++ [(taskId, make_stage (agent.getD taskId) desc (some dependsOn))]
      let cycles := detect_cycles stages1
      if cycles.isEmpty then
        .ok { data with stages := stages1, updated := now }
      else
        .cycleDetected cycles { data with stages := stages1.eraseP (fun p => p.1 == taskId) }

/-- `cmd_init` with `--mode dag`: empty stage mapping, status active. -/
def cmd_init_dag (project goal workspace now : String) : DagData :=
  { project := project
    goal := goal
    created := now
    updated := now
    status := .active
    workspace := workspace
    stages := [] }

/-! ## C2 — aggregate DAG status derivation -/

/-- `Except.toOption`-like extractor for `AddResult`. -/
def AddResult.getOk? : AddResult → Option DagData
  | .ok data => some data
  | _ => none

/-- A reachable DAG history: add `x`, add `y` (depends on `x`), fail `x`
(project becomes blocked), add `z` (no dependencies), then a status update on
`z`.  After the final update, `z` is ready despite the failure. -/
def dagBlockedChain : Option DagData :=
  (cmd_add (cmd_init_dag "p2" "" "" "t0") "x" none [] "" "t1").getOk?.bind fun d1 =>
  (cmd_add d1 "y" none ["x"] "" "t2").getOk?.bind fun d2 =>
  (cmd_update_dag d2 "x" Status.failed "t3").toOption.bind fun d3 =>
  (cmd_add d3 "z" none [] "" "t4").getOk?.bind fun d4 =>
  (cmd_update_dag d4 "z" Status.pending "t5").toOption

/-! ## Debate-mode data model and operations -/

/-- Round type strings `"initial" | "cross-review"` (synthesize creates no round). -/
inductive RoundType
  | initial
  | crossReview
deriving DecidableEq, Repr

/-- Round status strings `"in-progress" | "done"`. -/
inductive RoundStatus
  | inProgress
  | done
deriving DecidableEq, Repr

/-- One entry of `data["rounds"]`. `responses` is the dict debater-id → text. -/
structure Round where
  rtype : RoundType
  status : RoundStatus
  responses : List (String × String)
  startedAt : String
  completedAt : Option String
deriving DecidableEq, Repr

/-- One entry of a debater's personal `responses` history
(`{"round": n, "type": t, "response": text, "time": ts}`). -/
structure DebaterResponse where
  round : Nat
  rtype : RoundType
  response : String
  time : String
deriving DecidableEq, Repr

/-- One entry of `data["debaters"]`. -/
structure Debater where
  role : String
  responses : List DebaterResponse
deriving DecidableEq, Repr

/-- Root record of a debate-mode project (`cmd_init`, `mode == "debate"`). -/
structure DebateData where
  project : String
  goal : String
  created : String
  updated : String
  status : ProjStatus
  workspace : String
  debaters : List (String × Debater)
  rounds : List Round
  currentRound : Nat
deriving DecidableEq, Repr

/-- `cmd_init` with `--mode debate`. -/
def cmd_init_debate (project goal workspace now : String) : DebateData :=
  { project := project
    goal := goal
    created := now
    updated := now
    status := .active
    workspace := workspace
    debaters := []
    rounds := []
    currentRound := 0 }

/-- Update the first list element satisfying `f` in place (Python mutates the
single matching dict entry / history item it finds). -/
def updFirst {α : Type} (f : α → Bool) (g : α → α) : List α → List α
  | [] => []
  | x :: xs => if f x then g x :: xs else x :: updFirst f g xs

/-- Python dict assignment `responses[agent_id] = content`: overwrite in place
when the key exists, append otherwise. -/
def upsertResponse (responses : List (String × String)) (agentId content : String) :
    List (String × String) :=
  if agentId ∈ responses.map Prod.fst then
    updFirst (fun p => p.1 == agentId) (fun p => (p.1, content)) responses
  else
    responses ++ [(agentId, content)]

/-- `cmd_add_debater`: refused once any round exists; duplicate IDs refused;
otherwise a fresh debater with empty history is inserted. -/
def cmd_add_debater (data : DebateData) (agentId role now : String) :
    Except String DebateData :=
  if data.rounds ≠ [] then .error "cannot add debaters after rounds have started"
  else if agentId ∈ data.debaters.map Prod.fst then
    .error ("debater '" ++ agentId ++ "' already exists")
  else
    .ok { data with
      debaters := data.debaters ++ [(agentId, { role := role, responses := [] })]
      updated := now }

/-- `_debate_current_round`: `idx = currentRound - 1`, `None` when out of
range (in particular when `currentRound` is `0`, where the Python index is
`-1`). -/
def _debate_current_round (data : DebateData) : Option (Nat × Round) :=
  if data.currentRound = 0 then none
  else
    match data.rounds.get? (data.currentRound - 1) with
    | none => none
    | some r => some (data.currentRound - 1, r)

/-- The per-debater part of `_debate_record_response`: overwrite the history
item with the same (round number, round type) in place when present,
otherwise append a fresh item. -/
def recordDebaterResponse (d : Debater) (roundNum : Nat) (rtype : RoundType)
    (content now : String) : Debater :=
  if d.responses.any (fun item => item.round == roundNum && item.rtype == rtype) then
    { d with responses :=
        (updFirst (fun item => item.round == roundNum && item.rtype == rtype)
          (fun item => { item with response := content, time := now }) d.responses) }
  else
    { d with responses := d.responses ++ [⟨roundNum, rtype, content, now⟩] }

/-- `_debate_record_response(data, agent_id, round_idx, content)`, acting on
the debater mapping; `roundNum = round_idx + 1` and `rtype` is the type the
caller reads from `data["rounds"][round_idx]`. -/
def _debate_record_response (debaters : List (String × Debater)) (agentId : String)
    (roundNum : Nat) (rtype : RoundType) (content now : String) :
    List (String × Debater) :=
  updFirst (fun p => p.1 == agentId)
    (fun p => (p.1, recordDebaterResponse p.2 roundNum rtype content now)) debaters

/-- `_all_debaters_responded`: every debater ID is a key of the round's
response dict. -/
def _all_debaters_responded (debaters : List (String × Debater)) (roundData : Round) : Bool :=
  debaters.all fun p => roundData.responses.any fun q => q.1 == p.1

/-- `cmd_round <project> start`. -/
def cmd_round_start (data : DebateData) (now : String) : Except String DebateData :=
  if data.debaters = [] then .error "add at least one debater first"
  else if data.rounds ≠ [] then .error "initial round already started"
  else
    .ok { data with
      rounds := [{ rtype := .initial, status := .inProgress, responses := []
                   startedAt := now, completedAt := none }]
      currentRound := 1
      updated := now }

/-- `cmd_round <project> collect <agent> <text>`: record the response in the
current round (which must exist and be in progress) for a registered debater,
mirror it into the debater's history, then run the `_all_debaters_responded`
check and, if it fires, mark the round done and stamp its completion time. -/
def cmd_round_collect (data : DebateData) (agentId content now : String) :
    Except String DebateData :=
  match _debate_current_round data with
  | none => .error "no active round"
  | some (roundIdx, roundData) =>
    if roundData.status ≠ RoundStatus.inProgress then
      .error "current round is not accepting responses"
    else if agentId ∉ data.debaters.map Prod.fst then
      .error ("debater '" ++ agentId ++ "' not found")
    else
      let round1 := { roundData with
        responses := upsertResponse roundData.responses agentId content }
      let debaters1 :=
        _debate_record_response data.debaters agentId (roundIdx + 1) round1.rtype content now
      let round2 :=
        if _all_debaters_responded debaters1 round1 then
          { round1 with status := RoundStatus.done, completedAt := some now }
        else round1
      .ok { data with
        rounds := data.rounds.set roundIdx round2
        debaters := debaters1
        updated := now }

/-- `cmd_round <project> cross-review`: legal once round 1 exists, is of type
initial and is done; appends round 2 when only round 1 exists, otherwise
re-uses the existing round 2 (which must be of type cross-review) without
appending. -/
def cmd_round_cross_review (data : DebateData) (now : String) :
    Except String DebateData :=
  match data.rounds with
  | [] => .error "initial round not started"
  | initial :: rest =>
    if initial.rtype ≠ RoundType.initial then
      .error "invalid debate state: first round is not initial"
    else if initial.status ≠ RoundStatus.done then
      .error "complete initial round responses before cross-review"
    else
      match rest with
      | [] =>
        .ok { data with
          rounds := data.rounds ++
            [{ rtype := .crossReview, status := .inProgress, responses := []
               startedAt := now, completedAt := none }]
          currentRound := 2
          updated := now }
      | cross :: _ =>
        if cross.rtype ≠ RoundType.crossReview then
          .error "invalid debate state: second round is not cross-review"
        else
          .ok { data with currentRound := 2, updated := now }

/-- `cmd_round <project> synthesize`: legal once round 1 is done; sets the
project status to completed when a done cross-review round 2 exists; creates
no round and never touches round statuses. -/
def cmd_round_synthesize (data : DebateData) (now : String) :
    Except String DebateData :=
  match data.rounds with
  | [] => .error "no rounds found"
  | initial :: rest =>
    if initial.status ≠ RoundStatus.done then .error "initial round is incomplete"
    else
      let completed :=
        match rest.head? with
        | some cross => cross.rtype == RoundType.crossReview && cross.status == RoundStatus.done
        | none => false
      .ok { data with
        status := if completed then ProjStatus.completed else data.status
        updated := now }

/-! ## C9 — mode gating

Each command's behaviour depends on the project's mode only through the
checks at its top (`ensure_stage_mode` / `ensure_debate_mode` / `is_dag`);
these gate functions are the direct translation of those prefixes. -/

/-- `data["mode"]` values. -/
inductive Mode
  | linear
  | dag
  | debate
deriving DecidableEq, Repr

/-- How a command's mode check resolves before any state is touched. -/
inductive GateOutcome
  | proceed
  | wrongModeError
  | delegatesToNext
  | delegatesToReady
  | infoReturn
deriving DecidableEq, Repr

/-- `ensure_stage_mode`: stage commands error out on debate projects. -/
def ensure_stage_mode (m : Mode) : GateOutcome :=
  if m = Mode.debate then .wrongModeError else .proceed

/-- `ensure_debate_mode`: debate commands error out on non-debate projects. -/
def ensure_debate_mode (m : Mode) : GateOutcome :=
  if m ≠ Mode.debate then .wrongModeError else .proceed

/-- Mode gating of `cmd_add`: `ensure_stage_mode`, then an explicit error on
non-DAG projects. -/
def gate_add (m : Mode) : GateOutcome :=
  if ensure_stage_mode m = .wrongModeError then .wrongModeError
  else if m ≠ Mode.dag then .wrongModeError
  else .proceed

/-- Mode gating of `cmd_ready`: `ensure_stage_mode`, then on non-DAG projects
a hint is printed and the call **falls through to `cmd_next`**. -/
def gate_ready (m : Mode) : GateOutcome :=
  if ensure_stage_mode m = .wrongModeError then .wrongModeError
  else if m ≠ Mode.dag then .delegatesToNext
  else .proceed

/-- Mode gating of `cmd_next`: `ensure_stage_mode`, then on DAG projects the
call is redirected to `cmd_ready`. -/
def gate_next (m : Mode) : GateOutcome :=
  if ensure_stage_mode m = .wrongModeError then .wrongModeError
  else if m = Mode.dag then .delegatesToReady
  else .proceed

/-- Mode gating of `cmd_graph`: `ensure_stage_mode`, then on non-DAG projects
an informational line is printed and the command returns normally (exit
status 0, no error). -/
def gate_graph (m : Mode) : GateOutcome :=
  if ensure_stage_mode m = .wrongModeError then .wrongModeError
  else if m ≠ Mode.dag then .infoReturn
  else .proceed

/-- Mode gating of the stage commands `assign`, `update`, `log`, `result`,
`reset`, `history`: just `ensure_stage_mode`. -/
def gate_stage_op (m : Mode) : GateOutcome :=
  ensure_stage_mode m

/-- Mode gating of the debate commands `add-debater` and `round`:
just `ensure_debate_mode`. -/
def gate_debate_op (m : Mode) : GateOutcome :=
  ensure_debate_mode m

/-- The implicit debate invariant of C10: the response keys of every round
are registered debater IDs. -/
def RespKeysSubset (data : DebateData) : Prop :=
  ∀ r ∈ data.rounds, ∀ k ∈ r.responses.map Prod.fst, k ∈ data.debaters.map Prod.fst

/-- No round regresses from Done: every Done round is still Done at its index
after the operation. -/
def donePreserved (data data' : DebateData) : Prop :=
  ∀ j r, data.rounds.get? j = some r → r.status = RoundStatus.done →
    ∃ r', data'.rounds.get? j = some r' ∧ r'.status = RoundStatus.done

/-- The round value a successful `collect` writes back at the current index
(response upserted; Done with a completion stamp exactly when
`_all_debaters_responded` fires). -/
def collectRound (debaters1 : List (String × Debater)) (roundData : Round)
    (agentId content now : String) : Round :=
  let round1 := { roundData with
    responses := upsertResponse roundData.responses agentId content }
  if _all_debaters_responded debaters1 round1 then
    { round1 with status := RoundStatus.done, completedAt := some now }
  else round1

/-- A concrete debate project: one debater `A`, round 1 in progress. -/
def dbEx : DebateData :=
  { cmd_init_debate "p3" "q" "" "t0" with
      debaters := [("A", { role := "pro", responses := [] })]
      rounds := [{ rtype := .initial, status := .inProgress, responses := []
                   startedAt := "t1", completedAt := none }]
      currentRound := 1 }

/-- A concrete debate project for the C10 witness: debater `A`, round 1 in
progress with no responses yet. -/
def dbInv : DebateData :=
  { cmd_init_debate "p4" "q" "" "t0" with
      debaters := [("A", { role := "pro", responses := [] })]
      rounds := [{ rtype := .initial, status := .inProgress, responses := []
                   startedAt := "t1", completedAt := none }]
      currentRound := 1 }

/-! ## C8 — cross-review idempotence -/

/-- The fresh round-2 record that `cross-review` appends. -/
def crossRoundNew (now : String) : Round :=
  { rtype := .crossReview, status := .inProgress, responses := [], startedAt := now
    completedAt := none }

/-- A concrete debate project for the C8 witness: initial round done. -/
def crEx : DebateData :=
  { cmd_init_debate "p5" "q" "" "t0" with
      debaters := [("A", { role := "pro", responses := [] })]
      rounds := [{ rtype := .initial, status := .done, responses := [("A", "pos")]
                   startedAt := "t1", completedAt := some "t2" }]
      currentRound := 1 }

/-! ## C5 — cycle-detector correctness

The dependency relation restricted to existing stages: `a` depends on `b`
when `b` occurs in `a`'s `dependsOn` list and `b` is a stage key (the DFS
skips dependencies that are `not in color`, i.e. not stage keys). -/

/-- One edge of the dependency graph `detect_cycles` traverses. -/
def depEdge (stages : Stages) (a b : String) : Prop :=
  b ∈ depsOf stages a ∧ b ∈ stageKeys stages

instance (stages : Stages) (a b : String) : Decidable (depEdge stages a b) := by
  unfold depEdge
  infer_instance

/-- The dependency relation restricted to existing stages is acyclic. -/
def AcyclicStages (stages : Stages) : Prop :=
  ∀ v, ¬ Relation.TransGen (depEdge stages) v v

/-- `L` is a concrete cycle: nonempty, consecutive elements are dependency
edges, and the last element has an edge back to the first. -/
def isCycleList (stages : Stages) (L : List String) : Prop :=
  L ≠ [] ∧ L.Chain' (depEdge stages) ∧
    ∃ a b, L.head? = some a ∧ L.getLast? = some b ∧ depEdge stages b a

/-- Number of white keys: the DFS recursion measure. -/
def whiteCount (stages : Stages) (c : String → Color) : Nat :=
  ((stageKeys stages).filter fun k => c k == Color.white).length

/-- The DFS state invariant: gray nodes are exactly the path entries; the
path is a dependency chain of distinct stage keys; black nodes have only
black dependencies, witnessed by a rank function that strictly drops along
dependency edges out of black nodes. -/
def Inv (stages : Stages) (color : String → Color) (path : List String) : Prop :=
  (∀ u, color u = Color.gray ↔ u ∈ path) ∧
  path.Chain' (depEdge stages) ∧
  (∀ u ∈ path, u ∈ stageKeys stages) ∧
  path.Nodup ∧
  (∃ rank : String → Nat, ∀ u, color u = Color.black →
    ∀ d, depEdge stages u d → color d = Color.black ∧ rank d < rank u)

/-- What a nested `dfs` call guarantees (the induction hypothesis of
`dfs_spec`), for colourings with fewer than `bound` white keys: starting on a
white key whose link from the end of the path is a dependency edge, a
no-cycle return restores the path, only darkens white nodes to black —
blackening the start node — and re-establishes the invariant; a cycle return
is a concrete dependency cycle. -/
def DfsRecSpec (stages : Stages) (bound : Nat)
    (dfsRec : (String → Color) → List String → String →
      List String × (String → Color) × List String) : Prop :=
  ∀ color path node,
    whiteCount stages color < bound →
    node ∈ stageKeys stages →
    color node = Color.white →
    Inv stages color path →
    (path = [] ∨ ∃ lastNode, path.getLast? = some lastNode ∧ depEdge stages lastNode node) →
    ∀ cyc c' p', dfsRec color path node = (cyc, c', p') →
      (cyc = [] →
        p' = path ∧
        (∀ u, c' u = color u ∨ (color u = Color.white ∧ c' u = Color.black)) ∧
        c' node = Color.black ∧
        Inv stages c' path) ∧
      (cyc ≠ [] → isCycleList stages cyc)

/-! ## Theorems -/

/-! ## Association-list helper lemmas (Python dict semantics) -/

theorem mem_of_lookup_eq_some {β : Type} {l : List (String × β)} {k : String} {v : β}
    (h : l.lookup k = some v) : (k, v) ∈ l := by
  induction l with
  | nil => simp [List.lookup] at h
  | cons p rest ih =>
    obtain ⟨k', v'⟩ := p
    rw [List.lookup_cons] at h
    by_cases hk : k = k'
    · subst hk
      simp only [beq_self_eq_true] at h
      cases h
      exact List.mem_cons_self _ _
    · simp only [beq_eq_false_iff_ne, ne_eq, hk, not_false_eq_true, beq_false_of_ne] at h
      exact List.mem_cons_of_mem _ (ih h)

theorem lookup_eq_some_of_mem {β : Type} {l : List (String × β)}
    (hnd : (l.map Prod.fst).Nodup) {k : String} {v : β} (h : (k, v) ∈ l) :
    l.lookup k = some v := by
  induction l with
  | nil => simp at h
  | cons p rest ih =>
    obtain ⟨k', v'⟩ := p
    simp only [List.map_cons, List.nodup_cons] at hnd
    rcases List.mem_cons.mp h with heq | hmem
    · obtain ⟨rfl, rfl⟩ := Prod.mk.injEq .. ▸ heq
      simp [List.lookup_cons]
    · have hk : k ≠ k' := by
        rintro rfl
        exact hnd.1 (List.mem_map_of_mem Prod.fst hmem)
      simp only [List.lookup_cons, beq_false_of_ne hk]
      exact ih hnd.2 hmem

theorem lookup_isSome_iff_mem_keys {β : Type} {l : List (String × β)} {k : String} :
    (l.lookup k).isSome ↔ k ∈ l.map Prod.fst := by
  induction l with
  | nil => simp [List.lookup]
  | cons p rest ih =>
    obtain ⟨k', v'⟩ := p
    rw [List.lookup_cons]
    by_cases hk : k = k'
    · subst hk; simp
    · simp only [beq_eq_false_iff_ne, ne_eq, hk, not_false_eq_true, beq_false_of_ne,
        List.map_cons, List.mem_cons]
      rw [ih]
      simp [hk]

/-! ## C4 — ready-set computation -/

/-- C4: for every DAG stage mapping (with duplicate-free task IDs, as Python
dicts guarantee), a task ID is in `compute_ready_tasks` iff its status is
Pending and every ID in its `dependsOn` list resolves to a stage whose status
is Done or Skipped; hence the ready set is a subset of the Pending tasks, and
a task with no dependencies is ready iff it is Pending. -/
theorem ready_set_correct (stages : Stages) (hnd : (stages.map Prod.fst).Nodup) :
    (∀ t : String,
      t ∈ compute_ready_tasks stages ↔
        ∃ st : Stage, stages.lookup t = some st ∧ st.status = Status.pending ∧
          ∀ d ∈ st.dependsOn.getD [], ∃ dst : Stage, stages.lookup d = some dst ∧
            (dst.status = Status.done ∨ dst.status = Status.skipped)) ∧
    (∀ t ∈ compute_ready_tasks stages,
      ∃ st : Stage, stages.lookup t = some st ∧ st.status = Status.pending) ∧
    (∀ t st, stages.lookup t = some st → st.dependsOn.getD [] = [] →
      (t ∈ compute_ready_tasks stages ↔ st.status = Status.pending)) := by
  have depCheck : ∀ d : String,
      ((match stages.lookup d with
        | some st => st.status == Status.done || st.status == Status.skipped
        | none => false) = true) ↔
      (∃ dst : Stage, stages.lookup d = some dst ∧
        (dst.status = Status.done ∨ dst.status = Status.skipped)) := by
    intro d
    cases h : stages.lookup d with
    | none => simp
    | some st => simp [beq_iff_eq]
  have main : ∀ t : String,
      t ∈ compute_ready_tasks stages ↔
        ∃ st : Stage, stages.lookup t = some st ∧ st.status = Status.pending ∧
          ∀ d ∈ st.dependsOn.getD [], ∃ dst : Stage, stages.lookup d = some dst ∧
            (dst.status = Status.done ∨ dst.status = Status.skipped) := by
    intro t
    unfold compute_ready_tasks
    rw [List.mem_map]
    constructor
    · rintro ⟨⟨k, st⟩, hmem, rfl⟩
      rw [List.mem_filter] at hmem
      obtain ⟨hmem, hpred⟩ := hmem
      simp only [Bool.and_eq_true, beq_iff_eq, List.all_eq_true] at hpred
      refine ⟨st, lookup_eq_some_of_mem hnd hmem, hpred.1, fun d hd => ?_⟩
      exact (depCheck d).mp (hpred.2 d hd)
    · rintro ⟨st, hlk, hpend, hdeps⟩
      refine ⟨(t, st), ?_, rfl⟩
      rw [List.mem_filter]
      refine ⟨mem_of_lookup_eq_some hlk, ?_⟩
      simp only [Bool.and_eq_true, beq_iff_eq, List.all_eq_true]
      exact ⟨hpend, fun d hd => (depCheck d).mpr (hdeps d hd)⟩
  refine ⟨main, ?_, ?_⟩
  · intro t ht
    obtain ⟨st, hlk, hpend, -⟩ := (main t).mp ht
    exact ⟨st, hlk, hpend⟩
  · intro t st hlk hdeps
    constructor
    · intro ht
      obtain ⟨st', hlk', hpend, -⟩ := (main t).mp ht
      rw [hlk] at hlk'
      cases hlk'
      exact hpend
    · intro hpend
      exact (main t).mpr ⟨st, hlk, hpend, by simp [hdeps]⟩

/-- Witness for C4 at a concrete mapping: `x` (no deps, pending) is ready. -/
theorem ready_set_correct_witness :
    "x" ∈ compute_ready_tasks [("x", make_stage "x" "" (some []))] :=
  ((ready_set_correct [("x", make_stage "x" "" (some []))] (by decide)).1 "x").mpr
    ⟨make_stage "x" "" (some []), rfl, rfl, by simp [make_stage]⟩

/-! ## C3 — startedAt / completedAt discipline -/

/-- C3 counterexample: after marking a stage Done at `t1` (its first entry
into a terminal status, so `completedAt = t1`), a second terminal update
(Failed at `t2`) **overwrites** `completedAt` with `t2`, contradicting the
claim that `completedAt` is set only on the first transition into a terminal
status and never overwritten by later status updates. -/
theorem completedAt_overwritten_cex :
    (applyStatusUpdate (make_stage "a") Status.done "t1").completedAt = some "t1" ∧
    (applyStatusUpdate (applyStatusUpdate (make_stage "a") Status.done "t1")
        Status.failed "t2").completedAt = some "t2" := by
  constructor <;> rfl

/-- C3 (amended): `updateStatus` sets `startedAt` only on the first transition
into InProgress and never overwrites it; it stamps `completedAt` on **every**
transition into a terminal status (Done, Failed or Skipped), overwriting any
earlier value; non-terminal updates leave `completedAt` alone; an explicit
reset clears both timestamps. -/
theorem timestamps_discipline (stage : Stage) (newStatus : Status) (now : String) :
    (stage.startedAt = none → newStatus = Status.inProgress →
      (applyStatusUpdate stage newStatus now).startedAt = some now) ∧
    (∀ t, stage.startedAt = some t →
      (applyStatusUpdate stage newStatus now).startedAt = some t) ∧
    (stage.startedAt = none → newStatus ≠ Status.inProgress →
      (applyStatusUpdate stage newStatus now).startedAt = none) ∧
    (newStatus = Status.done ∨ newStatus = Status.failed ∨ newStatus = Status.skipped →
      (applyStatusUpdate stage newStatus now).completedAt = some now) ∧
    (newStatus = Status.pending ∨ newStatus = Status.inProgress →
      (applyStatusUpdate stage newStatus now).completedAt = stage.completedAt) ∧
    ((resetStage stage now).startedAt = none ∧ (resetStage stage now).completedAt = none) := by
  unfold applyStatusUpdate resetStage
  cases newStatus <;>
    cases hs : stage.startedAt <;>
      simp [hs]

/-- Witness for C3 (amended) at a concrete stage and update. -/
theorem timestamps_discipline_witness :
    (make_stage "a").startedAt = none ∧
    (applyStatusUpdate (make_stage "a") Status.inProgress "t1").startedAt = some "t1" :=
  ⟨rfl, (timestamps_discipline (make_stage "a") Status.inProgress "t1").1 rfl rfl⟩

/-- C1 counterexample: on `linEx` the current stage is `a`, yet marking the
non-current stage `b` Done moves `currentStage` from `some "a"` to `none`
(and completes the project): `cmd_update` advances the cursor from the
*marked* stage's pipeline position, not from `currentStage`. -/
theorem noncurrent_done_moves_cursor_cex :
    linEx.currentStage = some "a" ∧
    (cmd_update_linear linEx "b" Status.done "t1").toOption.map
      (fun d => (d.currentStage, d.status)) = some (none, ProjStatus.completed) := by
  constructor <;> rfl

/-- C1 (amended): in Linear mode, marking a stage Done sets `currentStage`
from the *marked* stage's own position in `pipelineOrder`, regardless of
whether it equals `currentStage` (so updating an already-passed stage rewinds
the cursor): the cursor becomes the pipeline entry after the marked stage, or
`none` with status Completed when the marked stage is last.  When the
pipeline is empty, the index sentinel `-1` equals `len(pipeline) - 1`, so
marking any stage Done completes the project and clears the cursor.  Marking
a stage that is not in a nonempty pipeline, or with a status other than Done
or Failed, leaves `currentStage` and the project status unchanged; Failed
sets the project status to Blocked without moving the cursor. -/
theorem linear_cursor_follows_marked_stage
    (data : LinearData) (stageId : String) (newStatus : Status) (now : String)
    (stage : Stage) (hlk : data.stages.lookup stageId = some stage) :
    ∃ data', cmd_update_linear data stageId newStatus now = .ok data' ∧
      (newStatus = Status.done →
        (stageId ∉ data.pipeline → data.pipeline ≠ [] →
          data'.currentStage = data.currentStage ∧ data'.status = data.status) ∧
        (data.pipeline = [] →
          data'.currentStage = none ∧ data'.status = ProjStatus.completed) ∧
        (stageId ∈ data.pipeline →
          (data.pipeline.indexOf stageId + 1 < data.pipeline.length →
            data'.currentStage = data.pipeline.get? (data.pipeline.indexOf stageId + 1) ∧
            data'.status = data.status) ∧
          (data.pipeline.indexOf stageId + 1 = data.pipeline.length →
            data'.currentStage = none ∧ data'.status = ProjStatus.completed))) ∧
      (newStatus = Status.failed →
        data'.currentStage = data.currentStage ∧ data'.status = ProjStatus.blocked) ∧
      (newStatus ≠ Status.done → newStatus ≠ Status.failed →
        data'.currentStage = data.currentStage ∧ data'.status = data.status) := by
  simp only [cmd_update_linear, hlk]
  refine ⟨_, rfl, ?_, ?_, ?_⟩
  · rintro rfl
    simp only [beq_self_eq_true, if_pos, reduceIte]
    refine ⟨?_, ?_, ?_⟩
    · intro hnotmem hne
      rw [if_neg hnotmem]
      have hlen : 0 < data.pipeline.length := List.length_pos.mpr hne
      rw [if_neg (by omega :
          ¬ ((0 : Int) ≤ -1 ∧ (-1 : Int) < (data.pipeline.length : Int) - 1)),
        if_neg (by omega : ¬ ((-1 : Int) = (data.pipeline.length : Int) - 1))]
      exact ⟨rfl, rfl⟩
    · intro hnil
      rw [hnil]
      have hnotmem : stageId ∉ ([] : List String) := List.not_mem_nil stageId
      rw [if_neg hnotmem]
      rw [if_neg (by omega :
          ¬ ((0 : Int) ≤ -1 ∧ (-1 : Int) < (([] : List String).length : Int) - 1)),
        if_pos (by simp : ((-1 : Int) = (([] : List String).length : Int) - 1))]
      exact ⟨rfl, rfl⟩
    · intro hmem
      rw [if_pos hmem]
      have hidx : data.pipeline.indexOf stageId < data.pipeline.length :=
        List.indexOf_lt_length.mpr hmem
      constructor
      · intro hlt
        rw [if_pos (show (0 : Int) ≤ (data.pipeline.indexOf stageId : Int) ∧
            ((data.pipeline.indexOf stageId : Int) < (data.pipeline.length : Int) - 1)
          from by constructor <;> omega)]
        exact ⟨rfl, rfl⟩
      · intro heq
        rw [if_neg (by omega :
            ¬ ((0 : Int) ≤ (data.pipeline.indexOf stageId : Int) ∧
              ((data.pipeline.indexOf stageId : Int) < (data.pipeline.length : Int) - 1))),
          if_pos (by omega :
            ((data.pipeline.indexOf stageId : Int) = (data.pipeline.length : Int) - 1))]
        exact ⟨rfl, rfl⟩
  · rintro rfl
    simp
  · intro hnd hnf
    rw [if_neg (by simpa using hnd), if_neg (by simpa using hnf)]
    exact ⟨rfl, rfl⟩

/-- Witness for C1 (amended): marking `a` Done on `linEx` advances the cursor
to `b` (the pipeline entry after `a`). -/
theorem linear_cursor_follows_marked_stage_witness :
    ∃ data', cmd_update_linear linEx "a" Status.done "t1" = .ok data' ∧
      data'.currentStage = some "b" := by
  obtain ⟨d', hok, hdone, -, -⟩ :=
    linear_cursor_follows_marked_stage linEx "a" Status.done "t1" (make_stage "a") rfl
  refine ⟨d', hok, ?_⟩
  have h := ((hdone rfl).2.2 (by decide)).1 (by decide)
  rw [h.1]
  rfl

/-- C2 counterexample: along the reachable history `dagBlockedChain`, the
final status-changing mutation leaves the project status `blocked`, while the
spec's pure derivation of the same stage mapping is `active` (a failure
exists but task `z` is ready): `check_dag_completion` does not recompute the
status wholesale — its failed-branch leaves the stale value in place. -/
theorem dag_status_stale_after_update_cex :
    dagBlockedChain.map (fun d => (d.status, dagDerivedStatus d.stages)) =
      some (ProjStatus.blocked, ProjStatus.active) := by
  rfl

/-- Any stage whose status is neither done nor skipped is failed, in progress
or pending: the three `check_dag_completion` branches are exhaustive. -/
theorem not_all_done_cases {stages : Stages} (h : allDoneOrSkipped stages = false) :
    anyFailed stages = true ∨ anyInProgressOrPending stages = true := by
  unfold allDoneOrSkipped at h
  rw [List.all_eq_false] at h
  obtain ⟨p, hp, hfail⟩ := h
  simp only [Bool.or_eq_true, beq_iff_eq, not_or] at hfail
  cases hst : p.2.status
  · exact Or.inr (by
      unfold anyInProgressOrPending
      rw [List.any_eq_true]
      exact ⟨p, hp, by simp [hst]⟩)
  · exact Or.inr (by
      unfold anyInProgressOrPending
      rw [List.any_eq_true]
      exact ⟨p, hp, by simp [hst]⟩)
  · exact absurd hst (by simpa using hfail.1)
  · exact Or.inl (by
      unfold anyFailed
      rw [List.any_eq_true]
      exact ⟨p, hp, by simp [hst]⟩)
  · exact absurd hst (by simpa using hfail.2)

/-- `check_dag_completion` never touches the stage mapping. -/
theorem check_dag_completion_stages (data : DagData) :
    (check_dag_completion data).stages = data.stages := by
  unfold check_dag_completion
  split_ifs <;> rfl

/-- C2 (amended): after `cmd_update` on a DAG project the status equals the
spec's pure derivation **except** when at least one stage is Failed and the
derivation yields Active (failures present, but some task is ready or in
progress): in that case `check_dag_completion` writes nothing and the status
keeps its previous — possibly stale — value. -/
theorem dag_status_after_update (data : DagData) (stageId : String) (newStatus : Status)
    (now : String) (stage : Stage) (hlk : data.stages.lookup stageId = some stage) :
    ∃ data', cmd_update_dag data stageId newStatus now = .ok data' ∧
      data'.stages = setStage data.stages stageId (applyStatusUpdate stage newStatus now) ∧
      data'.status =
        (if anyFailed data'.stages = true ∧ dagDerivedStatus data'.stages = ProjStatus.active
         then data.status
         else dagDerivedStatus data'.stages) := by
  simp only [cmd_update_dag, hlk]
  refine ⟨_, rfl, ?_, ?_⟩
  · exact check_dag_completion_stages _
  · rw [check_dag_completion_stages]
    unfold check_dag_completion dagDerivedStatus
    set S := setStage data.stages stageId (applyStatusUpdate stage newStatus now) with hS
    by_cases h1 : allDoneOrSkipped S = true
    · simp [h1]
    · rw [Bool.not_eq_true] at h1
      by_cases h2 : anyFailed S = true
      · by_cases h3 : ((compute_ready_tasks S).isEmpty && !anyInProgress S) = true
        · simp [h1, h2, h3]
        · rw [Bool.not_eq_true] at h3
          simp [h1, h2, h3]
      · rw [Bool.not_eq_true] at h2
        rcases not_all_done_cases h1 with h2' | h4
        · rw [h2'] at h2; cases h2
        · simp [h1, h2, h4]

/-- Witness for C2 (amended): completing the only stage of a one-task DAG
yields status completed, matching the derivation. -/
theorem dag_status_after_update_witness :
    ∃ data', cmd_update_dag
        { cmd_init_dag "p2" "" "" "t0" with stages := [("x", make_stage "x" "" (some []))] }
        "x" Status.done "t1" = .ok data' ∧
      data'.status = ProjStatus.completed := by
  obtain ⟨d', hok, hstg, hst⟩ :=
    dag_status_after_update
      { cmd_init_dag "p2" "" "" "t0" with stages := [("x", make_stage "x" "" (some []))] }
      "x" Status.done "t1" (make_stage "x" "" (some [])) rfl
  refine ⟨d', hok, ?_⟩
  rw [hstg] at hst
  rw [hst, if_neg (by decide)]
  rfl

/-- C9 counterexample: `queryReadyTasks` (`cmd_ready`) on a Linear project
does **not** fail with a WrongMode error — it prints a hint and delegates to
`cmd_next`; likewise `queryGraph` on a Linear project returns an
informational message without failing. -/
theorem ready_on_linear_not_wrong_mode_cex :
    gate_ready Mode.linear = GateOutcome.delegatesToNext ∧
    gate_graph Mode.linear = GateOutcome.infoReturn ∧
    GateOutcome.delegatesToNext ≠ GateOutcome.wrongModeError ∧
    GateOutcome.infoReturn ≠ GateOutcome.wrongModeError := by
  decide

/-- C9 (amended): `addTask` on a non-Dag project and every Debate-only
operation on a non-Debate project fail with WrongMode; every stage operation
and `queryNextStage`, `queryReadyTasks`, `queryGraph` on a Debate project
fail with WrongMode; but `queryReadyTasks` on a Linear project delegates to
`queryNextStage` (and `queryNextStage` on a Dag project delegates to
`queryReadyTasks`), and `queryGraph` on a Linear project returns an
informational message without failing. -/
theorem mode_gate_characterization :
    (∀ m, gate_add m =
      (if m = Mode.dag then GateOutcome.proceed else GateOutcome.wrongModeError)) ∧
    (∀ m, gate_debate_op m =
      (if m = Mode.debate then GateOutcome.proceed else GateOutcome.wrongModeError)) ∧
    (∀ m, gate_stage_op m =
      (if m = Mode.debate then GateOutcome.wrongModeError else GateOutcome.proceed)) ∧
    gate_next Mode.debate = GateOutcome.wrongModeError ∧
    gate_ready Mode.debate = GateOutcome.wrongModeError ∧
    gate_graph Mode.debate = GateOutcome.wrongModeError ∧
    gate_ready Mode.linear = GateOutcome.delegatesToNext ∧
    gate_next Mode.dag = GateOutcome.delegatesToReady ∧
    gate_graph Mode.linear = GateOutcome.infoReturn :=
  ⟨fun m => by cases m <;> rfl, fun m => by cases m <;> rfl, fun m => by cases m <;> rfl,
    rfl, rfl, rfl, rfl, rfl, rfl⟩

/-! ## C10 — response keys are registered debaters -/

/-- `updFirst` with a key-preserving update leaves the key list unchanged. -/
theorem map_fst_updFirst {β : Type} (f : String × β → Bool) (g : String × β → String × β)
    (hg : ∀ p, (g p).1 = p.1) (l : List (String × β)) :
    (updFirst f g l).map Prod.fst = l.map Prod.fst := by
  induction l with
  | nil => rfl
  | cons x xs ih =>
    unfold updFirst
    by_cases h : f x <;> simp [h, ih, hg]

/-- A key of an upserted response dict is an old key or the upserted agent. -/
theorem mem_keys_upsertResponse {responses : List (String × String)}
    {agentId content k : String}
    (hk : k ∈ (upsertResponse responses agentId content).map Prod.fst) :
    k ∈ responses.map Prod.fst ∨ k = agentId := by
  unfold upsertResponse at hk
  split_ifs at hk with h
  · rw [map_fst_updFirst (fun p => p.1 == agentId) (fun p => (p.1, content))
      (fun p => rfl)] at hk
    exact Or.inl hk
  · rw [List.map_append] at hk
    rcases List.mem_append.mp hk with h1 | h2
    · exact Or.inl h1
    · simp only [List.map_cons, List.map_nil, List.mem_singleton] at h2
      exact Or.inr h2

/-- `_debate_record_response` only rewrites a debater's history; the debater
key list is unchanged. -/
theorem map_fst_record_response (debaters : List (String × Debater)) (agentId : String)
    (roundNum : Nat) (rtype : RoundType) (content now : String) :
    (_debate_record_response debaters agentId roundNum rtype content now).map Prod.fst =
      debaters.map Prod.fst :=
  map_fst_updFirst (fun p => p.1 == agentId)
    (fun p => (p.1, recordDebaterResponse p.2 roundNum rtype content now))
    (fun _ => rfl) debaters

/-- Inverting `_debate_current_round data = some (idx, r)`. -/
theorem _debate_current_round_some {data : DebateData} {idx : Nat} {r : Round}
    (h : _debate_current_round data = some (idx, r)) :
    data.rounds.get? idx = some r ∧ idx = data.currentRound - 1 ∧
      data.currentRound ≠ 0 := by
  unfold _debate_current_round at h
  by_cases h0 : data.currentRound = 0
  · rw [if_pos h0] at h
    cases h
  · rw [if_neg h0] at h
    cases hg : data.rounds.get? (data.currentRound - 1) with
    | none => rw [hg] at h; cases h
    | some r' =>
      rw [hg] at h
      injection h with h1
      cases h1
      exact ⟨hg, rfl, h0⟩

/-- C10: every debate operation preserves the invariant that response keys of
every round are registered debater IDs — `cmd_init` establishes it (no
rounds), `add-debater` only grows the debater mapping (and is refused once a
round exists), `start` and `cross-review` create rounds with empty response
dicts, `collect` rejects unregistered debaters before writing, and
`synthesize` touches neither rounds nor debaters. -/
theorem debate_resp_keys_invariant :
    (∀ project goal workspace now,
      RespKeysSubset (cmd_init_debate project goal workspace now)) ∧
    (∀ data agentId role now data', RespKeysSubset data →
      cmd_add_debater data agentId role now = .ok data' → RespKeysSubset data') ∧
    (∀ data agentId role now, data.rounds ≠ [] →
      cmd_add_debater data agentId role now =
        .error "cannot add debaters after rounds have started") ∧
    (∀ data now data', RespKeysSubset data →
      cmd_round_start data now = .ok data' → RespKeysSubset data') ∧
    (∀ data agentId content now data', RespKeysSubset data →
      cmd_round_collect data agentId content now = .ok data' → RespKeysSubset data') ∧
    (∀ data now data', RespKeysSubset data →
      cmd_round_cross_review data now = .ok data' → RespKeysSubset data') ∧
    (∀ data now data', RespKeysSubset data →
      cmd_round_synthesize data now = .ok data' → RespKeysSubset data') := by
  refine ⟨?_, ?_, ?_, ?_, ?_, ?_, ?_⟩
  · intro project goal workspace now r hr
    simp [cmd_init_debate] at hr
  · intro data agentId role now data' hsub hok
    unfold cmd_add_debater at hok
    split_ifs at hok with h1 h2
    simp only [Except.ok.injEq] at hok
    subst hok
    intro r hr k hk
    simp only [List.map_append]
    exact List.mem_append_left _ (hsub r hr k hk)
  · intro data agentId role now hne
    unfold cmd_add_debater
    rw [if_pos hne]
  · intro data now data' hsub hok
    unfold cmd_round_start at hok
    split_ifs at hok with h1 h2
    simp only [Except.ok.injEq] at hok
    subst hok
    intro r hr k hk
    simp only [List.mem_singleton] at hr
    subst hr
    simp at hk
  · intro data agentId content now data' hsub hok
    unfold cmd_round_collect at hok
    split at hok
    · cases hok
    · next roundIdx roundData hcur =>
      obtain ⟨hget, -, -⟩ := _debate_current_round_some hcur
      have hmemRound : roundData ∈ data.rounds := List.get?_mem hget
      split_ifs at hok with h1 h2
      simp only [Except.ok.injEq] at hok
      subst hok
      intro r hr k hk
      simp only at hr hk ⊢
      rw [map_fst_record_response]
      rcases List.mem_or_eq_of_mem_set hr with hmem | rfl
      · exact hsub r hmem k hk
      · have hk' : k ∈ (upsertResponse roundData.responses agentId content).map Prod.fst := by
          rcases hall : _all_debaters_responded
              (_debate_record_response data.debaters agentId (roundIdx + 1)
                roundData.rtype content now)
              { roundData with
                  responses := upsertResponse roundData.responses agentId content } with
            _ | _ <;>
            simpa [hall] using hk
        rcases mem_keys_upsertResponse hk' with hold | rfl
        · exact hsub roundData hmemRound k hold
        · exact h2
  · intro data now data' hsub hok
    unfold cmd_round_cross_review at hok
    split at hok
    · cases hok
    · next r0 rest hrounds =>
      cases rest with
      | nil =>
        split_ifs at hok with ht hs
        simp only [Except.ok.injEq] at hok
        subst hok
        intro r hr k hk
        simp only at hr hk ⊢
        rcases List.mem_append.mp hr with hmem | hnew
        · exact hsub r hmem k hk
        · simp only [List.mem_singleton] at hnew
          subst hnew
          simp at hk
      | cons cross rest' =>
        split_ifs at hok with ht hs
        dsimp only at hok
        split_ifs at hok with hc
        simp only [Except.ok.injEq] at hok
        subst hok
        intro r hr k hk
        exact hsub r hr k hk
  · intro data now data' hsub hok
    unfold cmd_round_synthesize at hok
    split at hok
    · cases hok
    · next r0 rest hrounds =>
      split_ifs at hok with hs
      simp only [Except.ok.injEq] at hok
      subst hok
      intro r hr k hk
      exact hsub r hr k hk

/-! ## C7 — round Done transition -/

/-- `_all_debaters_responded` decides exactly "every debater ID is a response
key". -/
theorem all_debaters_responded_iff {debaters : List (String × Debater)} {r : Round} :
    _all_debaters_responded debaters r = true ↔
      ∀ a ∈ debaters.map Prod.fst, a ∈ r.responses.map Prod.fst := by
  unfold _all_debaters_responded
  rw [List.all_eq_true]
  constructor
  · intro h a ha
    obtain ⟨p, hp, rfl⟩ := List.mem_map.mp ha
    have hp' := h p hp
    rw [List.any_eq_true] at hp'
    obtain ⟨q, hq, hbeq⟩ := hp'
    rw [beq_iff_eq] at hbeq
    exact hbeq ▸ List.mem_map_of_mem Prod.fst hq
  · intro h p hp
    rw [List.any_eq_true]
    obtain ⟨q, hq, hqe⟩ := List.mem_map.mp (h p.1 (List.mem_map_of_mem Prod.fst hp))
    exact ⟨q, hq, beq_iff_eq.mpr hqe⟩

/-- Upserting a response preserves duplicate-freedom of the response keys. -/
theorem nodup_keys_upsertResponse {responses : List (String × String)} {a c : String}
    (h : (responses.map Prod.fst).Nodup) :
    ((upsertResponse responses a c).map Prod.fst).Nodup := by
  unfold upsertResponse
  split_ifs with hmem
  · rw [map_fst_updFirst (fun p => p.1 == a) (fun p => (p.1, c)) (fun _ => rfl)]
    exact h
  · rw [List.map_append]
    simp only [List.map_cons, List.map_nil]
    rw [List.nodup_append]
    exact ⟨h, List.nodup_singleton a, by simpa using hmem⟩

/-- For duplicate-free lists with `l1 ⊆ l2`, the lengths agree exactly when
every element of `l2` already occurs in `l1`. -/
theorem length_eq_iff_all_mem {l1 l2 : List String} (h1 : l1.Nodup) (h2 : l2.Nodup)
    (hsub : l1 ⊆ l2) : l1.length = l2.length ↔ ∀ a ∈ l2, a ∈ l1 := by
  have hc1 : l1.toFinset.card = l1.length := List.toFinset_card_of_nodup h1
  have hc2 : l2.toFinset.card = l2.length := List.toFinset_card_of_nodup h2
  have hfsub : l1.toFinset ⊆ l2.toFinset := by
    intro x hx
    rw [List.mem_toFinset] at hx ⊢
    exact hsub hx
  constructor
  · intro hlen a ha
    have heq : l1.toFinset = l2.toFinset :=
      Finset.eq_of_subset_of_card_le hfsub (by omega)
    rw [← List.mem_toFinset, heq, List.mem_toFinset]
    exact ha
  · intro hall
    have hfsub2 : l2.toFinset ⊆ l1.toFinset := by
      intro x hx
      rw [List.mem_toFinset] at hx ⊢
      exact hall x hx
    have heq : l1.toFinset = l2.toFinset := Finset.Subset.antisymm hfsub hfsub2
    rw [heq] at hc1
    omega

theorem collectRound_responses (debaters1 : List (String × Debater)) (roundData : Round)
    (agentId content now : String) :
    (collectRound debaters1 roundData agentId content now).responses =
      upsertResponse roundData.responses agentId content := by
  unfold collectRound
  dsimp only
  split_ifs <;> rfl

theorem collectRound_status (debaters1 : List (String × Debater)) (roundData : Round)
    (agentId content now : String) (hip : roundData.status = RoundStatus.inProgress) :
    ((collectRound debaters1 roundData agentId content now).status = RoundStatus.done ↔
      _all_debaters_responded debaters1
        { roundData with
          responses := upsertResponse roundData.responses agentId content } = true) := by
  unfold collectRound
  dsimp only
  split_ifs with hall
  · simp [hall]
  · simp only [Bool.not_eq_true] at hall
    rw [hall, hip]
    simp

/-- Inversion of a successful `collect`. -/
theorem cmd_round_collect_ok {data : DebateData} {agentId content now : String}
    {data' : DebateData}
    (hok : cmd_round_collect data agentId content now = .ok data') :
    ∃ roundIdx roundData,
      _debate_current_round data = some (roundIdx, roundData) ∧
      roundData.status = RoundStatus.inProgress ∧
      agentId ∈ data.debaters.map Prod.fst ∧
      data' = { data with
        rounds := (data.rounds.set roundIdx
          (collectRound (_debate_record_response data.debaters agentId (roundIdx + 1)
            roundData.rtype content now) roundData agentId content now))
        debaters := (_debate_record_response data.debaters agentId (roundIdx + 1)
          roundData.rtype content now)
        updated := now } := by
  unfold cmd_round_collect at hok
  split at hok
  · cases hok
  · next roundIdx roundData hcur =>
    split_ifs at hok with h1 h2
    refine ⟨roundIdx, roundData, hcur, not_not.mp h1, h2, ?_⟩
    simp only [Except.ok.injEq] at hok
    rw [← hok]
    rfl

/-- C7: in Debate mode, a successful `collect` acts only on an InProgress
round, and afterwards the current round is Done **iff** its response count
equals the debater count, equivalently iff every registered debater has a
response recorded in it (under Python's dict invariants: duplicate-free
debater and response keys, and C10's response-keys ⊆ debaters); moreover no
operation (`start`, `collect`, `cross-review`, `synthesize`) ever takes a
Done round back to InProgress. -/
theorem round_done_exactly_when_all_responded (data : DebateData)
    (hndDeb : (data.debaters.map Prod.fst).Nodup)
    (hndResp : ∀ r ∈ data.rounds, (r.responses.map Prod.fst).Nodup)
    (hsub : RespKeysSubset data) :
    (∀ agentId content now data',
      cmd_round_collect data agentId content now = .ok data' →
      (∃ idx r, _debate_current_round data = some (idx, r) ∧
        r.status = RoundStatus.inProgress) ∧
      (∃ idx r', _debate_current_round data' = some (idx, r') ∧
        (r'.status = RoundStatus.done ↔ r'.responses.length = data'.debaters.length) ∧
        (r'.status = RoundStatus.done ↔
          ∀ a ∈ data.debaters.map Prod.fst, a ∈ r'.responses.map Prod.fst)) ∧
      donePreserved data data') ∧
    (∀ now data', cmd_round_start data now = .ok data' → donePreserved data data') ∧
    (∀ now data', cmd_round_cross_review data now = .ok data' → donePreserved data data') ∧
    (∀ now data', cmd_round_synthesize data now = .ok data' → donePreserved data data') := by
  refine ⟨?_, ?_, ?_, ?_⟩
  · intro agentId content now data' hok
    obtain ⟨roundIdx, roundData, hcur, hip, h2, hdata'⟩ := cmd_round_collect_ok hok
    obtain ⟨hget, hidx, h0⟩ := _debate_current_round_some hcur
    have hmemRound : roundData ∈ data.rounds := List.get?_mem hget
    subst hdata'
    set debaters1 := _debate_record_response data.debaters agentId (roundIdx + 1)
      roundData.rtype content now with hdeb1
    set round2 := collectRound debaters1 roundData agentId content now with hround2
    have hkeysDeb : debaters1.map Prod.fst = data.debaters.map Prod.fst :=
      map_fst_record_response data.debaters agentId (roundIdx + 1)
        roundData.rtype content now
    have hresp2 : round2.responses = upsertResponse roundData.responses agentId content :=
      collectRound_responses debaters1 roundData agentId content now
    have hstat2 : round2.status = RoundStatus.done ↔
        _all_debaters_responded debaters1
          { roundData with
            responses := upsertResponse roundData.responses agentId content } = true :=
      collectRound_status debaters1 roundData agentId content now hip
    have hall_iff : _all_debaters_responded debaters1
        { roundData with
          responses := upsertResponse roundData.responses agentId content } = true ↔
        ∀ a ∈ data.debaters.map Prod.fst,
          a ∈ (upsertResponse roundData.responses agentId content).map Prod.fst := by
      rw [all_debaters_responded_iff, hkeysDeb]
    have hsubKeys : (upsertResponse roundData.responses agentId content).map Prod.fst ⊆
        data.debaters.map Prod.fst := by
      intro k hk
      rcases mem_keys_upsertResponse hk with hold | rfl
      · exact hsub roundData hmemRound k hold
      · exact h2
    have hndR1 : ((upsertResponse roundData.responses agentId content).map Prod.fst).Nodup :=
      nodup_keys_upsertResponse (hndResp roundData hmemRound)
    have hlen_iff : (upsertResponse roundData.responses agentId content).length =
        data.debaters.length ↔
        ∀ a ∈ data.debaters.map Prod.fst,
          a ∈ (upsertResponse roundData.responses agentId content).map Prod.fst := by
      have h := length_eq_iff_all_mem hndR1 hndDeb hsubKeys
      rwa [List.length_map, List.length_map] at h
    have hlendeb : debaters1.length = data.debaters.length := by
      have h := congrArg List.length hkeysDeb
      rwa [List.length_map, List.length_map] at h
    refine ⟨⟨roundIdx, roundData, hcur, hip⟩, ?_, ?_⟩
    · have hcur' : _debate_current_round
          { data with
              rounds := (data.rounds.set roundIdx round2)
              debaters := debaters1
              updated := now } = some (roundIdx, round2) := by
        unfold _debate_current_round
        dsimp only
        rw [if_neg h0, ← hidx, List.get?_set_eq, hget]
        rfl
      refine ⟨roundIdx, round2, hcur', ?_, ?_⟩
      · dsimp only
        rw [hstat2, hresp2, hlendeb, hall_iff]
        exact hlen_iff.symm
      · rw [hstat2, hresp2, hall_iff]
    · intro j r hj hdone
      by_cases hji : j = roundIdx
      · subst hji
        rw [hj] at hget
        injection hget with hget
        rw [hget, hip] at hdone
        cases hdone
      · refine ⟨r, ?_, hdone⟩
        show (data.rounds.set roundIdx round2).get? j = some r
        rw [List.get?_set_ne round2 data.rounds (fun h => hji h.symm)]
        exact hj
  · intro now data' hok
    unfold cmd_round_start at hok
    split_ifs at hok with hd hr
    simp only [Except.ok.injEq] at hok
    subst hok
    intro j r hj hdone
    rw [not_not] at hr
    rw [hr] at hj
    cases j <;> cases hj
  · intro now data' hok
    unfold cmd_round_cross_review at hok
    split at hok
    · cases hok
    · next r0 rest hrounds =>
      cases rest with
      | nil =>
        split_ifs at hok with ht hs
        simp only [Except.ok.injEq] at hok
        subst hok
        intro j r hj hdone
        refine ⟨r, ?_, hdone⟩
        simp only
        have hjlt : j < data.rounds.length := (List.get?_eq_some.mp hj).1
        rw [List.get?_append hjlt]
        exact hj
      | cons cross rest' =>
        split_ifs at hok with ht hs
        dsimp only at hok
        split_ifs at hok with hc
        simp only [Except.ok.injEq] at hok
        subst hok
        intro j r hj hdone
        exact ⟨r, hj, hdone⟩
  · intro now data' hok
    unfold cmd_round_synthesize at hok
    split at hok
    · cases hok
    · next r0 rest hrounds =>
      split_ifs at hok with hs
      simp only [Except.ok.injEq] at hok
      subst hok
      intro j r hj hdone
      exact ⟨r, hj, hdone⟩

/-- Witness for C7: collecting the only missing response on `dbEx` acts on an
InProgress round. -/
theorem round_done_exactly_when_all_responded_witness :
    ∃ idx r, _debate_current_round dbEx = some (idx, r) ∧
      r.status = RoundStatus.inProgress :=
  (((round_done_exactly_when_all_responded dbEx (by decide) (by decide)
    (by unfold RespKeysSubset; decide)).1 "A" "pos" "t2" _ rfl).1)

/-- Witness for C10: collecting a response on `dbInv` preserves the
response-keys ⊆ debaters invariant. -/
theorem debate_resp_keys_invariant_witness :
    ∃ data', cmd_round_collect dbInv "A" "pos" "t2" = .ok data' ∧ RespKeysSubset data' := by
  refine ⟨_, rfl, ?_⟩
  exact debate_resp_keys_invariant.2.2.2.2.1 dbInv "A" "pos" "t2" _
    (by unfold RespKeysSubset; decide) rfl

/-- C8: for a debate project whose initial round exists, is of type Initial
and is Done — and whose rounds list has one of the two shapes the engine can
produce: just the initial round, or initial plus a CrossReview round 2 —
invoking `cross-review` twice in a row succeeds both times, the second
invocation leaves the rounds list unchanged, and the resulting rounds
sequence contains exactly one CrossReview round. -/
theorem cross_review_idempotent (data : DebateData) (r0 : Round) (rest : List Round)
    (hrounds : data.rounds = r0 :: rest)
    (h0t : r0.rtype = RoundType.initial) (h0s : r0.status = RoundStatus.done)
    (hrest : rest = [] ∨ ∃ r1, rest = [r1] ∧ r1.rtype = RoundType.crossReview)
    (now1 now2 : String) :
    ∃ d1 d2, cmd_round_cross_review data now1 = .ok d1 ∧
      cmd_round_cross_review d1 now2 = .ok d2 ∧
      d2.rounds = d1.rounds ∧
      (d1.rounds.filter (fun r => r.rtype == RoundType.crossReview)).length = 1 := by
  have h0t' : ¬ r0.rtype ≠ RoundType.initial := by rw [h0t]; simp
  have h0s' : ¬ r0.status ≠ RoundStatus.done := by rw [h0s]; simp
  rcases hrest with rfl | ⟨r1, rfl, h1t⟩
  · refine ⟨{ data with
        rounds := (data.rounds ++ [crossRoundNew now1])
        currentRound := 2
        updated := now1 },
      { data with
        rounds := (data.rounds ++ [crossRoundNew now1])
        currentRound := 2
        updated := now2 }, ?_, ?_, rfl, ?_⟩
    · unfold cmd_round_cross_review
      rw [hrounds]
      dsimp only
      rw [if_neg h0t', if_neg h0s']
      rfl
    · unfold cmd_round_cross_review
      rw [show ({ data with
            rounds := (data.rounds ++ [crossRoundNew now1])
            currentRound := 2
            updated := now1 } : DebateData).rounds = data.rounds ++ [crossRoundNew now1] from
          rfl,
        hrounds]
      simp only [List.singleton_append]
      rw [if_neg h0t', if_neg h0s']
      rw [if_neg (by simp [crossRoundNew])]
    · rw [hrounds]
      simp only [List.singleton_append, List.filter_cons]
      rw [show (r0.rtype == RoundType.crossReview) = false from by rw [h0t]; rfl]
      rfl
  · have h1t' : ¬ r1.rtype ≠ RoundType.crossReview := by rw [h1t]; simp
    refine ⟨{ data with currentRound := 2, updated := now1 },
      { data with currentRound := 2, updated := now2 }, ?_, ?_, rfl, ?_⟩
    · unfold cmd_round_cross_review
      rw [hrounds]
      dsimp only
      rw [if_neg h0t', if_neg h0s', if_neg h1t']
    · unfold cmd_round_cross_review
      rw [show ({ data with currentRound := 2, updated := now1 } : DebateData).rounds =
          data.rounds from rfl,
        hrounds]
      dsimp only
      rw [if_neg h0t', if_neg h0s', if_neg h1t']
    · rw [hrounds]
      simp only [List.filter_cons]
      rw [show (r0.rtype == RoundType.crossReview) = false from by rw [h0t]; rfl,
        show (r1.rtype == RoundType.crossReview) = true from by rw [h1t]; rfl]
      rfl

/-- Witness for C8 on `crEx`. -/
theorem cross_review_idempotent_witness :
    ∃ d1 d2, cmd_round_cross_review crEx "t3" = .ok d1 ∧
      cmd_round_cross_review d1 "t4" = .ok d2 ∧
      d2.rounds = d1.rounds ∧
      (d1.rounds.filter (fun r => r.rtype == RoundType.crossReview)).length = 1 :=
  cross_review_idempotent crEx
    { rtype := .initial, status := .done, responses := [("A", "pos")]
      startedAt := "t1", completedAt := some "t2" }
    [] rfl rfl rfl (Or.inl rfl) "t3" "t4"

theorem length_filter_le_of_imp {l : List String} {p q : String → Bool}
    (h : ∀ a, p a = true → q a = true) :
    (l.filter p).length ≤ (l.filter q).length := by
  induction l with
  | nil => simp
  | cons a l ih =>
    by_cases hp : p a = true
    · rw [List.filter_cons_of_pos hp, List.filter_cons_of_pos (h a hp)]
      simpa using ih
    · rw [List.filter_cons_of_neg (by simpa using hp)]
      by_cases hq : q a = true
      · rw [List.filter_cons_of_pos hq]
        exact ih.trans (Nat.le_succ _)
      · rw [List.filter_cons_of_neg (by simpa using hq)]
        exact ih

theorem length_filter_lt_of_imp {l : List String} {p q : String → Bool} {x : String}
    (hx : x ∈ l) (hpx : p x = false) (hqx : q x = true)
    (h : ∀ a, p a = true → q a = true) :
    (l.filter p).length < (l.filter q).length := by
  induction l with
  | nil => cases hx
  | cons a l ih =>
    rcases List.mem_cons.mp hx with rfl | hx'
    · rw [List.filter_cons_of_neg (by simp [hpx]), List.filter_cons_of_pos hqx]
      simpa [Nat.lt_succ_iff] using length_filter_le_of_imp (l := l) h
    · by_cases hp : p a = true
      · rw [List.filter_cons_of_pos hp, List.filter_cons_of_pos (h a hp)]
        simpa using ih hx'
      · rw [List.filter_cons_of_neg (by simpa using hp)]
        by_cases hq : q a = true
        · rw [List.filter_cons_of_pos hq]
          exact (ih hx').trans (Nat.lt_succ_self _)
        · rw [List.filter_cons_of_neg (by simpa using hq)]
          exact ih hx'

/-- Darkening a pointwise-monotone colour change never increases the white
count. -/
theorem whiteCount_le_of_pointwise {stages : Stages} {c1 c2 : String → Color}
    (h : ∀ u, c2 u = Color.white → c1 u = Color.white) :
    whiteCount stages c2 ≤ whiteCount stages c1 := by
  unfold whiteCount
  refine length_filter_le_of_imp ?_
  intro a ha
  rw [beq_iff_eq] at ha ⊢
  exact h a ha

/-- Graying a white key strictly decreases the white count. -/
theorem whiteCount_update_gray_lt {stages : Stages} {c : String → Color} {node : String}
    (hk : node ∈ stageKeys stages) (hw : c node = Color.white) :
    whiteCount stages (Function.update c node Color.gray) < whiteCount stages c := by
  unfold whiteCount
  refine length_filter_lt_of_imp hk ?_ ?_ ?_
  · simp [Function.update_same]
  · simp [hw]
  · intro a ha
    rw [beq_iff_eq] at ha ⊢
    by_cases hna : a = node
    · subst hna
      rw [Function.update_same] at ha
      cases ha
    · rwa [Function.update_noteq hna] at ha

/-- The pointwise post-condition of one `dfs` call composes. -/
theorem pointwise_trans {c1 c2 c3 : String → Color}
    (h12 : ∀ u, c2 u = c1 u ∨ (c1 u = Color.white ∧ c2 u = Color.black))
    (h23 : ∀ u, c3 u = c2 u ∨ (c2 u = Color.white ∧ c3 u = Color.black)) :
    ∀ u, c3 u = c1 u ∨ (c1 u = Color.white ∧ c3 u = Color.black) := by
  intro u
  rcases h23 u with h3 | ⟨hw2, hb3⟩
  · rcases h12 u with h2 | ⟨hw1, hb2⟩
    · exact Or.inl (h3.trans h2)
    · exact Or.inr ⟨hw1, h3.trans hb2⟩
  · rcases h12 u with h2 | ⟨hw1, hb2⟩
    · exact Or.inr ⟨h2 ▸ hw2, hb3⟩
    · rw [hb2] at hw2
      cases hw2

/-- A white node under the new colouring was white under the old one. -/
theorem white_of_pointwise {c1 c2 : String → Color}
    (h : ∀ u, c2 u = c1 u ∨ (c1 u = Color.white ∧ c2 u = Color.black)) :
    ∀ u, c2 u = Color.white → c1 u = Color.white := by
  intro u hw
  rcases h u with h2 | ⟨hw1, hb2⟩
  · exact h2 ▸ hw
  · rw [hb2] at hw
    cases hw

/-- A dependency edge's source is an existing stage key. -/
theorem depEdge_source_mem {stages : Stages} {a b : String} (h : depEdge stages a b) :
    a ∈ stageKeys stages := by
  obtain ⟨hdep, -⟩ := h
  unfold depsOf at hdep
  cases hlk : stages.lookup a with
  | none => rw [hlk] at hdep; cases hdep
  | some st =>
    have : (stages.lookup a).isSome := by rw [hlk]; rfl
    rw [lookup_isSome_iff_mem_keys] at this
    exact this

/-- Upper bound used for the black ranks: membership bounds the fold. -/
theorem le_foldr_max {a : Nat} {l : List Nat} (h : a ∈ l) : a ≤ l.foldr max 0 := by
  induction l with
  | nil => cases h
  | cons x l ih =>
    rcases List.mem_cons.mp h with rfl | h'
    · exact Nat.le_max_left _ _
    · exact (ih h').trans (Nat.le_max_right _ _)

theorem pointwise_trans_at {c1 c2 c3 : String → Color} {u : String}
    (h12 : c2 u = c1 u ∨ (c1 u = Color.white ∧ c2 u = Color.black))
    (h23 : c3 u = c2 u ∨ (c2 u = Color.white ∧ c3 u = Color.black)) :
    c3 u = c1 u ∨ (c1 u = Color.white ∧ c3 u = Color.black) := by
  rcases h23 with h3 | ⟨hw2, hb3⟩
  · rcases h12 with h2 | ⟨hw1, hb2⟩
    · exact Or.inl (h3.trans h2)
    · exact Or.inr ⟨hw1, h3.trans hb2⟩
  · rcases h12 with h2 | ⟨hw1, hb2⟩
    · exact Or.inr ⟨h2 ▸ hw2, hb3⟩
    · rw [hb2] at hw2
      cases hw2

/-- Specification of the dependency loop of `dfs`: assuming every nested call
behaves (`DfsRecSpec`), the loop — entered with the node gray at the end of
the path, the unprocessed dependencies a sub-collection of the node's
dependency list, and every already-processed existing dependency black —
either finishes with no cycle (restoring the popped path, blackening the node
and keeping the invariant) or returns a concrete dependency cycle. -/
theorem dfsDeps_spec (stages : Stages) (bound : Nat)
    (dfsRec : (String → Color) → List String → String →
      List String × (String → Color) × List String)
    (hrec : DfsRecSpec stages bound dfsRec) (node : String)
    (hnk : node ∈ stageKeys stages) :
    ∀ (deps : List String) (color : String → Color) (path : List String),
      whiteCount stages color < bound →
      color node = Color.gray →
      path.getLast? = some node →
      (∀ d ∈ deps, d ∈ depsOf stages node) →
      (∀ d, d ∈ depsOf stages node → d ∈ stageKeys stages → d ∉ deps →
        color d = Color.black) →
      Inv stages color path →
      ∀ cyc c' p', dfsDeps stages dfsRec deps color path node = (cyc, c', p') →
        (cyc = [] →
          p' = path.dropLast ∧
          (∀ u, u ≠ node →
            (c' u = color u ∨ (color u = Color.white ∧ c' u = Color.black))) ∧
          c' node = Color.black ∧
          Inv stages c' path.dropLast) ∧
        (cyc ≠ [] → isCycleList stages cyc) := by
  intro deps
  induction deps with
  | nil =>
    intro color path hwc hgray hlast hdeps hproc hinv cyc c' p' hres
    obtain ⟨hinv1, hinv2, hinv3, hinv4, rank, hrank⟩ := hinv
    rw [dfsDeps] at hres
    injection hres with hres1 hres2
    injection hres2 with hres2 hres3
    subst hres1; subst hres2; subst hres3
    refine ⟨fun _ => ?_, fun hne => absurd rfl hne⟩
    have hpne : path ≠ [] := by
      intro h
      rw [h] at hlast
      cases hlast
    have hgl : path.getLast hpne = node := by
      rw [List.getLast?_eq_getLast path hpne] at hlast
      injection hlast
    have hdecomp : path.dropLast ++ [node] = path := by
      rw [← hgl]
      exact List.dropLast_append_getLast hpne
    have hnd' : path.dropLast.Nodup ∧ node ∉ path.dropLast := by
      have h := hinv4
      rw [← hdecomp, List.nodup_append] at h
      exact ⟨h.1, fun hmem => h.2.2 hmem (List.mem_singleton_self node)⟩
    refine ⟨rfl, ?_, Function.update_same _ _ _, ?_, ?_, ?_, ?_, ?_⟩
    · intro u hu
      rw [Function.update_noteq hu]
      exact Or.inl rfl
    · -- gray ↔ membership in the popped path
      intro u
      by_cases hu : u = node
      · subst hu
        rw [Function.update_same]
        constructor
        · intro h
          cases h
        · intro h
          exact absurd h hnd'.2
      · rw [Function.update_noteq hu, hinv1 u, ← hdecomp]
        simp [hu]
    · -- chain on the popped path
      have h := hinv2
      rw [← hdecomp, List.chain'_append] at h
      exact h.1
    · intro u hu
      refine hinv3 u ?_
      rw [← hdecomp]
      exact List.mem_append_left _ hu
    · exact hnd'.1
    · -- black topology with the node ranked above all its dependencies
      refine ⟨fun u => if u = node then ((depsOf stages node).map rank).foldr max 0 + 1
        else rank u, ?_⟩
      intro u hu d hedge
      by_cases hun : u = node
      · have hedge' : depEdge stages node d := hun ▸ hedge
        have hdb : color d = Color.black :=
          hproc d hedge'.1 hedge'.2 (List.not_mem_nil d)
        have hdn : d ≠ node := by
          intro h
          rw [h, hgray] at hdb
          cases hdb
        refine ⟨by rwa [Function.update_noteq hdn], ?_⟩
        simp only [if_neg hdn, if_pos hun]
        exact Nat.lt_succ_of_le (le_foldr_max (List.mem_map_of_mem rank hedge'.1))
      · rw [Function.update_noteq hun] at hu
        obtain ⟨hdb, hlt⟩ := hrank u hu d hedge
        have hdn : d ≠ node := by
          intro h
          rw [h, hgray] at hdb
          cases hdb
        refine ⟨by rwa [Function.update_noteq hdn], ?_⟩
        simp only [if_neg hdn, if_neg hun]
        exact hlt
  | cons dep rest ih =>
    intro color path hwc hgray hlast hdeps hproc hinv cyc c' p' hres
    rw [dfsDeps] at hres
    by_cases hk : dep ∉ stageKeys stages
    · rw [if_pos hk] at hres
      refine ih color path hwc hgray hlast (fun d hd => hdeps d (List.mem_cons_of_mem _ hd))
        ?_ hinv cyc c' p' hres
      intro d hd hdk hdr
      refine hproc d hd hdk ?_
      intro hmem
      rcases List.mem_cons.mp hmem with rfl | h
      · exact hk hdk
      · exact hdr h
    · rw [if_neg hk] at hres
      rw [not_not] at hk
      have hdepmem : dep ∈ depsOf stages node := hdeps dep (List.mem_cons_self _ _)
      have hedge : depEdge stages node dep := ⟨hdepmem, hk⟩
      by_cases hgd : color dep = Color.gray
      · rw [if_pos hgd] at hres
        injection hres with hres1 hres2
        injection hres2 with hres2 hres3
        subst hres1; subst hres2; subst hres3
        obtain ⟨hinv1, hinv2, hinv3, hinv4, hinv5⟩ := hinv
        have hdp : dep ∈ path := (hinv1 dep).mp hgd
        have hi : path.indexOf dep < path.length := List.indexOf_lt_length.mpr hdp
        have hne : path.drop (path.indexOf dep) ≠ [] := by
          rw [ne_eq, List.drop_eq_nil_iff_le]
          omega
        refine ⟨fun hc => absurd hc hne, fun _ => ?_⟩
        have hhead : (path.drop (path.indexOf dep)).head? = some dep := by
          rw [List.head?_drop]
          rw [List.getElem?_eq_getElem hi]
          exact congrArg some (List.indexOf_get hi)
        have hlast' : (path.drop (path.indexOf dep)).getLast? = some node := by
          have h := hlast
          conv at h => rw [← List.take_append_drop (path.indexOf dep) path]
          rw [List.getLast?_append] at h
          rw [List.getLast?_eq_getLast _ hne] at h ⊢
          rw [Option.or_some] at h
          exact h
        refine ⟨hne, ?_, dep, node, hhead, hlast', hedge⟩
        have h := hinv2
        conv at h => rw [← List.take_append_drop (path.indexOf dep) path]
        rw [List.chain'_append] at h
        exact h.2.1
      · rw [if_neg hgd] at hres
        by_cases hwd : color dep = Color.white
        · rw [if_pos hwd] at hres
          rcases hres0 : dfsRec color path dep with ⟨cyc0, c0, p0⟩
          rw [hres0] at hres
          have hchild := hrec color path dep hwc hk hwd hinv
            (Or.inr ⟨node, hlast, hedge⟩) cyc0 c0 p0 hres0
          cases cyc0 with
          | nil =>
            simp only at hres
            obtain ⟨hp0, hpw, hdb, hinv0⟩ := hchild.1 rfl
            rw [hp0] at hres
            have hwc0 : whiteCount stages c0 < bound :=
              lt_of_le_of_lt (whiteCount_le_of_pointwise (white_of_pointwise hpw)) hwc
            have hgray0 : c0 node = Color.gray := by
              rcases hpw node with h | ⟨hw, -⟩
              · rw [h]; exact hgray
              · rw [hgray] at hw; cases hw
            have hproc0 : ∀ d, d ∈ depsOf stages node → d ∈ stageKeys stages → d ∉ rest →
                c0 d = Color.black := by
              intro d hd hdk hdr
              by_cases hdd : d = dep
              · subst hdd
                exact hdb
              · have hcb : color d = Color.black := by
                  refine hproc d hd hdk ?_
                  intro hmem
                  rcases List.mem_cons.mp hmem with h | h
                  · exact hdd h
                  · exact hdr h
                rcases hpw d with h | ⟨hw, hb⟩
                · rw [h]; exact hcb
                · exact hb
            have hres' := ih c0 path hwc0 hgray0 hlast
              (fun d hd => hdeps d (List.mem_cons_of_mem _ hd)) hproc0 hinv0 cyc c' p' hres
            refine ⟨?_, hres'.2⟩
            intro hc
            obtain ⟨hp', hcol, hnb, hinvf⟩ := hres'.1 hc
            refine ⟨hp', ?_, hnb, hinvf⟩
            intro u hu
            exact pointwise_trans_at (hpw u) (hcol u hu)
          | cons y ys =>
            simp only at hres
            injection hres with h1 h2
            injection h2 with h2 h3
            subst h1; subst h2; subst h3
            exact ⟨fun hc => (by cases hc), fun _ => hchild.2 (by simp)⟩
        · rw [if_neg hwd] at hres
          have hbd : color dep = Color.black := by
            cases hcd : color dep
            · exact absurd hcd hwd
            · exact absurd hcd hgd
            · rfl
          refine ih color path hwc hgray hlast (fun d hd => hdeps d (List.mem_cons_of_mem _ hd))
            ?_ hinv cyc c' p' hres
          intro d hd hdk hdr
          by_cases hdd : d = dep
          · subst hdd
            exact hbd
          · refine hproc d hd hdk ?_
            intro hmem
            rcases List.mem_cons.mp hmem with h | h
            · exact hdd h
            · exact hdr h

/-- `dfs` satisfies its specification at every fuel bound: the fuel-0 branch
is unreachable because each entered node is white and the white count sits
strictly below the fuel. -/
theorem dfs_spec (stages : Stages) :
    ∀ fuel, DfsRecSpec stages fuel (fun c p n => dfsGo stages fuel c p n) := by
  intro fuel
  induction fuel with
  | zero =>
    intro color path node hwc hnk hwhite hinv hlink cyc c' p' hres
    exact absurd hwc (Nat.not_lt_zero _)
  | succ fuel ih =>
    intro color path node hwc hnk hwhite hinv hlink cyc c' p' hres
    change dfsGo stages (fuel + 1) color path node = (cyc, c', p') at hres
    rw [show dfsGo stages (fuel + 1) color path node =
        dfsDeps stages (fun c p n => dfsGo stages fuel c p n) (depsOf stages node)
          (Function.update color node Color.gray) (path ++ [node]) node from rfl] at hres
    obtain ⟨hinv1, hinv2, hinv3, hinv4, hinv5⟩ := hinv
    have hnmem : node ∉ path := by
      intro h
      rw [← hinv1 node] at h
      rw [hwhite] at h
      cases h
    have hwc1 : whiteCount stages (Function.update color node Color.gray) < fuel := by
      have h1 := whiteCount_update_gray_lt (c := color) hnk hwhite
      omega
    have hinv1' : Inv stages (Function.update color node Color.gray) (path ++ [node]) := by
      refine ⟨?_, ?_, ?_, ?_, ?_⟩
      · intro u
        by_cases hu : u = node
        · subst hu
          simp [Function.update_same]
        · rw [Function.update_noteq hu, hinv1 u]
          simp [hu]
      · rw [List.chain'_append]
        refine ⟨hinv2, List.chain'_singleton node, ?_⟩
        intro x hx y hy
        simp only [List.head?_cons, Option.mem_def, Option.some.injEq] at hy
        subst hy
        rcases hlink with rfl | ⟨lastNode, hl, he⟩
        · cases hx
        · rw [hl] at hx
          simp only [Option.mem_def, Option.some.injEq] at hx
          subst hx
          exact he
      · intro u hu
        rcases List.mem_append.mp hu with h | h
        · exact hinv3 u h
        · simp only [List.mem_singleton] at h
          subst h
          exact hnk
      · rw [List.nodup_append]
        refine ⟨hinv4, List.nodup_singleton node, ?_⟩
        intro a ha hb
        simp only [List.mem_singleton] at hb
        subst hb
        exact hnmem ha
      · obtain ⟨rank, hrank⟩ := hinv5
        refine ⟨rank, ?_⟩
        intro u hu d hedge
        by_cases hun : u = node
        · rw [hun, Function.update_same] at hu
          cases hu
        · rw [Function.update_noteq hun] at hu
          obtain ⟨hdb, hlt⟩ := hrank u hu d hedge
          have hdn : d ≠ node := by
            intro h
            rw [h, hwhite] at hdb
            cases hdb
          rw [Function.update_noteq hdn]
          exact ⟨hdb, hlt⟩
    have hpost := dfsDeps_spec stages fuel (fun c p n => dfsGo stages fuel c p n) ih node hnk
      (depsOf stages node) (Function.update color node Color.gray) (path ++ [node])
      hwc1 (Function.update_same _ _ _) (List.getLast?_concat path)
      (fun d hd => hd) (fun d hd _ hdn => absurd hd hdn) hinv1' cyc c' p' hres
    refine ⟨?_, hpost.2⟩
    intro hc
    obtain ⟨hp', hcol, hnb, hinvf⟩ := hpost.1 hc
    rw [List.dropLast_concat] at hp' hinvf
    refine ⟨hp', ?_, hnb, ?_⟩
    · intro u
      by_cases hu : u = node
      · subst hu
        exact Or.inr ⟨hwhite, hnb⟩
      · rcases hcol u hu with h | ⟨hw, hb⟩
        · rw [Function.update_noteq hu] at h
          exact Or.inl h
        · rw [Function.update_noteq hu] at hw
          exact Or.inr ⟨hw, hb⟩
    · exact hinvf

/-- The top loop of `detect_cycles`: either it returns a concrete cycle, or
every listed key ends black, with the invariant maintained. -/
theorem detectCyclesGo_spec (stages : Stages) (fuel : Nat) :
    ∀ (tids : List String) (color : String → Color),
      tids ⊆ stageKeys stages →
      whiteCount stages color < fuel →
      Inv stages color [] →
      (detectCyclesGo stages fuel tids color [] ≠ [] →
        isCycleList stages (detectCyclesGo stages fuel tids color [])) ∧
      (detectCyclesGo stages fuel tids color [] = [] →
        ∃ c', Inv stages c' [] ∧
          (∀ u, color u = Color.black → c' u = Color.black) ∧
          (∀ k ∈ tids, c' k = Color.black)) := by
  intro tids
  induction tids with
  | nil =>
    intro color hsub hwc hinv
    rw [detectCyclesGo]
    exact ⟨fun h => absurd rfl h,
      fun _ => ⟨color, hinv, fun u h => h, fun k hk => absurd hk (List.not_mem_nil k)⟩⟩
  | cons tid rest ihl =>
    intro color hsub hwc hinv
    have htidk : tid ∈ stageKeys stages := hsub (List.mem_cons_self _ _)
    have hsubr : rest ⊆ stageKeys stages := fun k hk => hsub (List.mem_cons_of_mem _ hk)
    rw [detectCyclesGo]
    by_cases hw : color tid = Color.white
    · rw [if_pos hw]
      rcases hdfs : dfsGo stages fuel color [] tid with ⟨cyc0, c0, p0⟩
      have hchild := dfs_spec stages fuel color [] tid hwc htidk hw hinv (Or.inl rfl)
        cyc0 c0 p0 hdfs
      cases cyc0 with
      | nil =>
        obtain ⟨hp0, hpw, htb, hinv0⟩ := hchild.1 rfl
        subst hp0
        simp only
        have hwc0 : whiteCount stages c0 < fuel :=
          lt_of_le_of_lt (whiteCount_le_of_pointwise (white_of_pointwise hpw)) hwc
        obtain ⟨h1, h2⟩ := ihl c0 hsubr hwc0 hinv0
        refine ⟨h1, ?_⟩
        intro he
        obtain ⟨c', hinv', hmono, hrest⟩ := h2 he
        have hmono' : ∀ u, color u = Color.black → c' u = Color.black := by
          intro u hu
          refine hmono u ?_
          rcases hpw u with h | ⟨hw', -⟩
          · rw [h]; exact hu
          · rw [hu] at hw'; cases hw'
        refine ⟨c', hinv', hmono', ?_⟩
        intro k hk
        rcases List.mem_cons.mp hk with rfl | hk'
        · exact hmono k htb
        · exact hrest k hk'
      | cons y ys =>
        simp only
        exact ⟨fun _ => hchild.2 (by simp), fun hc => (by cases hc)⟩
    · rw [if_neg hw]
      obtain ⟨h1, h2⟩ := ihl color hsubr hwc hinv
      refine ⟨h1, ?_⟩
      intro he
      obtain ⟨c', hinv', hmono, hrest⟩ := h2 he
      have htb : color tid = Color.black := by
        cases hc : color tid
        · exact absurd hc hw
        · exact absurd ((hinv.1 tid).mp hc) (List.not_mem_nil tid)
        · rfl
      refine ⟨c', hinv', hmono, ?_⟩
      intro k hk
      rcases List.mem_cons.mp hk with rfl | hk'
      · exact hmono k htb
      · exact hrest k hk'

/-- A nonempty dependency chain from `a` to `b` gives a reflexive-transitive
path in the edge relation. -/
theorem chain_reflTransGen {α : Type} {R : α → α → Prop} :
    ∀ (L : List α) (a b : α), L.Chain' R → L.head? = some a → L.getLast? = some b →
      Relation.ReflTransGen R a b := by
  intro L
  induction L with
  | nil =>
    intro a b _ h
    cases h
  | cons x xs ih =>
    intro a b hchain hha hlb
    simp only [List.head?_cons, Option.some.injEq] at hha
    subst hha
    cases xs with
    | nil =>
      simp only [List.getLast?_singleton, Option.some.injEq] at hlb
      subst hlb
      exact Relation.ReflTransGen.refl
    | cons y ys =>
      rw [List.chain'_cons] at hchain
      rw [List.getLast?_cons_cons] at hlb
      exact Relation.ReflTransGen.head hchain.1 (ih y b hchain.2 rfl hlb)

/-- Full specification of the cycle detector, shared by the developments
around `detect_cycles` and `cmd_add`. -/
theorem detect_cycles_spec (stages : Stages) :
    (detect_cycles stages = [] ↔ AcyclicStages stages) ∧
    (detect_cycles stages ≠ [] → isCycleList stages (detect_cycles stages)) := by
  have hinv0 : Inv stages (fun _ => Color.white) [] := by
    refine ⟨?_, List.chain'_nil, ?_, List.nodup_nil, ⟨fun _ => 0, ?_⟩⟩
    · intro u
      constructor
      · intro h
        cases h
      · intro h
        cases h
    · intro u hu
      cases hu
    · intro u hu
      cases hu
  have hwc0 : whiteCount stages (fun _ => Color.white) < stages.length + 1 := by
    have h1 : whiteCount stages (fun _ => Color.white) ≤ (stageKeys stages).length :=
      List.length_filter_le _ _
    have h2 : (stageKeys stages).length = stages.length := List.length_map _ _
    omega
  obtain ⟨hsound, hdone⟩ := detectCyclesGo_spec stages (stages.length + 1)
    (stageKeys stages) (fun _ => Color.white) (fun x hx => hx) hwc0 hinv0
  rw [show detect_cycles stages = detectCyclesGo stages (stages.length + 1)
    (stageKeys stages) (fun _ => Color.white) [] from rfl]
  refine ⟨⟨?_, ?_⟩, hsound⟩
  · intro he
    obtain ⟨c', hinv', hmono, hall⟩ := hdone he
    obtain ⟨-, -, -, -, rank, hrank⟩ := hinv'
    intro v hv
    have hstep : ∀ a b, depEdge stages a b → rank b < rank a := by
      intro a b hab
      have hak : a ∈ stageKeys stages := depEdge_source_mem hab
      exact (hrank a (hall a hak) b hab).2
    have hdesc : ∀ x y, Relation.TransGen (depEdge stages) x y → rank y < rank x := by
      intro x y h
      induction h with
      | single h1 => exact hstep _ _ h1
      | tail h1 hxy ih => exact lt_trans (hstep _ _ hxy) ih
    have := hdesc v v hv
    omega
  · intro hacyc
    by_contra hne
    obtain ⟨hL, hchain, a, b, hha, hlb, hedge⟩ := hsound hne
    exact hacyc a (Relation.TransGen.tail'
      (chain_reflTransGen _ a b hchain hha hlb) hedge)

/-- C5: `detect_cycles` (a total function of the finite stage mapping, hence
terminating on any graph, self-loops and disconnected components included)
returns the empty list exactly when the dependency relation restricted to
existing stages is acyclic, and any nonempty return value is a concrete
dependency cycle: consecutive entries are dependency edges and the last
entry has an edge closing back to the first. -/
theorem detect_cycles_correct (stages : Stages) :
    (detect_cycles stages = [] ↔ AcyclicStages stages) ∧
    (detect_cycles stages ≠ [] → isCycleList stages (detect_cycles stages)) :=
  detect_cycles_spec stages

/-- Witness for C5: on a concrete two-task mapping with mutual dependencies,
`detect_cycles` returns a nonempty list that is a concrete cycle. -/
theorem detect_cycles_correct_witness :
    isCycleList
      [("a", make_stage "a" "" (some ["b"])), ("b", make_stage "b" "" (some ["a"]))]
      (detect_cycles
        [("a", make_stage "a" "" (some ["b"])), ("b", make_stage "b" "" (some ["a"]))]) :=
  (detect_cycles_correct
    [("a", make_stage "a" "" (some ["b"])), ("b", make_stage "b" "" (some ["a"]))]).2
    (by decide)

/-! ## C6 — addTask cycle safety and rollback -/

theorem lookup_append {β : Type} (l1 l2 : List (String × β)) (k : String) :
    (l1 ++ l2).lookup k = ((l1.lookup k).or (l2.lookup k)) := by
  induction l1 with
  | nil => simp [List.lookup]
  | cons p rest ih =>
    obtain ⟨k', v'⟩ := p
    rcases Bool.eq_false_or_eq_true (k == k') with hb | hb <;>
      simp [List.lookup_cons, hb, ih]

theorem lookup_eq_none_of_not_mem {β : Type} {l : List (String × β)} {k : String}
    (h : k ∉ l.map Prod.fst) : l.lookup k = none := by
  cases hlk : l.lookup k with
  | none => rfl
  | some v =>
    exact absurd (lookup_isSome_iff_mem_keys.mp (by rw [hlk]; rfl)) h

/-- In the tentatively extended mapping, old stages resolve as before. -/
theorem depsOf_append_old (stages : Stages) (t : String) (s : Stage)
    (a : String) (ha : a ≠ t) : depsOf (stages ++ [(t, s)]) a = depsOf stages a := by
  unfold depsOf
  rw [lookup_append]
  cases hlk : stages.lookup a with
  | none =>
    simp only [Option.none_or]
    rw [List.lookup_cons]
    have : (a == t) = false := beq_false_of_ne ha
    rw [this]
    rfl
  | some st => rfl

/-- In the tentatively extended mapping, the fresh task resolves to the fresh
stage. -/
theorem depsOf_append_new (stages : Stages) (t : String) (s : Stage)
    (hfresh : t ∉ stageKeys stages) :
    depsOf (stages ++ [(t, s)]) t = s.dependsOn.getD [] := by
  unfold depsOf
  rw [lookup_append, lookup_eq_none_of_not_mem hfresh]
  simp only [Option.none_or]
  rw [List.lookup_cons, beq_self_eq_true]

/-- No dependency edge of the extended mapping points at the fresh task. -/
theorem no_edge_into_fresh {stages : Stages} {t : String} {s : Stage}
    (hclosed : ∀ p ∈ stages, ∀ d ∈ p.2.dependsOn.getD [], d ∈ stageKeys stages)
    (hfresh : t ∉ stageKeys stages)
    (hdeps : ∀ d ∈ s.dependsOn.getD [], d ∈ stageKeys stages) :
    ∀ a, ¬ depEdge (stages ++ [(t, s)]) a t := by
  intro a ha
  obtain ⟨hdep, -⟩ := ha
  by_cases hat : a = t
  · rw [hat, depsOf_append_new stages t s hfresh] at hdep
    exact hfresh (hdeps t hdep)
  · rw [depsOf_append_old stages t s a hat] at hdep
    unfold depsOf at hdep
    cases hlk : stages.lookup a with
    | none => rw [hlk] at hdep; cases hdep
    | some st =>
      rw [hlk] at hdep
      exact hfresh (hclosed (a, st) (mem_of_lookup_eq_some hlk) t hdep)

/-- An edge of the extended mapping between nodes other than the fresh task
is an edge of the original mapping. -/
theorem depEdge_append_elim {stages : Stages} {t : String} {s : Stage} {a b : String}
    (hat : a ≠ t) (hbt : b ≠ t)
    (h : depEdge (stages ++ [(t, s)]) a b) : depEdge stages a b := by
  obtain ⟨hdep, hbk⟩ := h
  rw [depsOf_append_old stages t s a hat] at hdep
  refine ⟨hdep, ?_⟩
  unfold stageKeys at hbk ⊢
  rw [List.map_append] at hbk
  rcases List.mem_append.mp hbk with h | h
  · exact h
  · simp only [List.map_cons, List.map_nil, List.mem_singleton] at h
    exact absurd h hbt

theorem transGen_target {α : Type} {r : α → α → Prop} {a b : α}
    (h : Relation.TransGen r a b) : ∃ c, r c b := by
  induction h with
  | single h1 => exact ⟨_, h1⟩
  | tail _ h2 => exact ⟨_, h2⟩

/-- Inserting a fresh task whose dependencies exist preserves acyclicity. -/
theorem acyclic_insert {stages : Stages} {t : String} {s : Stage}
    (hclosed : ∀ p ∈ stages, ∀ d ∈ p.2.dependsOn.getD [], d ∈ stageKeys stages)
    (hfresh : t ∉ stageKeys stages)
    (hdeps : ∀ d ∈ s.dependsOn.getD [], d ∈ stageKeys stages)
    (hacyc : AcyclicStages stages) : AcyclicStages (stages ++ [(t, s)]) := by
  have hno := no_edge_into_fresh hclosed hfresh hdeps
  intro v hv
  have hvt : v ≠ t := by
    obtain ⟨w, hw⟩ := transGen_target hv
    intro he
    exact hno w (he ▸ hw)
  have hlift : ∀ x y, Relation.TransGen (depEdge (stages ++ [(t, s)])) x y → x ≠ t →
      Relation.TransGen (depEdge stages) x y := by
    intro x y h
    induction h with
    | @single b h1 =>
      intro hx
      have hbt : b ≠ t := by
        intro he
        exact hno x (he ▸ h1)
      exact Relation.TransGen.single (depEdge_append_elim hx hbt h1)
    | @tail b c h1 h2 ih =>
      intro hx
      have hbt : b ≠ t := by
        obtain ⟨w, hw⟩ := transGen_target h1
        intro he
        exact hno w (he ▸ hw)
      have hct : c ≠ t := by
        intro he
        exact hno b (he ▸ h2)
      exact Relation.TransGen.tail (ih hx) (depEdge_append_elim hbt hct h2)
  exact hacyc v (hlift v v hv hvt)

/-- Deleting the freshly inserted key restores the original mapping. -/
theorem eraseP_append_fresh (stages : Stages) (t : String) (s : Stage)
    (hfresh : t ∉ stageKeys stages) :
    (stages ++ [(t, s)]).eraseP (fun p => p.1 == t) = stages := by
  rw [List.eraseP_append_right]
  · rw [List.eraseP_cons_of_pos (by simp)]
    simp
  · intro b hb
    simp only [Bool.not_eq_true, beq_eq_false_iff_ne, ne_eq]
    intro he
    exact hfresh (he ▸ List.mem_map_of_mem Prod.fst hb)

/-- Both mode-independent validations of `cmd_add` pass for a fresh task with
existing dependencies, leaving only the cycle check. -/
theorem cmd_add_unfold (data : DagData) (taskId : String) (agent : Option String)
    (dependsOn : List String) (desc : String) (now : String)
    (hfresh : taskId ∉ stageKeys data.stages)
    (hfind : dependsOn.find? (fun d => decide (d ∉ stageKeys data.stages)) = none) :
    cmd_add data taskId agent dependsOn desc now =
      (if (detect_cycles (data.stages ++
            [(taskId, make_stage (agent.getD taskId) desc (some dependsOn))])).isEmpty then
        .ok { data with
          stages := (data.stages ++
            [(taskId, make_stage (agent.getD taskId) desc (some dependsOn))])
          updated := now }
      else
        .cycleDetected
          (detect_cycles (data.stages ++
            [(taskId, make_stage (agent.getD taskId) desc (some dependsOn))]))
          { data with
            stages := ((data.stages ++
              [(taskId, make_stage (agent.getD taskId) desc (some dependsOn))]).eraseP
                (fun p => p.1 == taskId)) }) := by
  unfold cmd_add
  rw [if_neg hfresh, hfind]

/-- C6: for a DAG mapping satisfying the data-model invariant (all stored
dependencies reference existing stages) and a fresh task ID whose declared
dependencies all exist: if the mapping is acyclic, `cmd_add` succeeds with
exactly the tentatively inserted mapping, which remains acyclic; if the
post-insertion dependency graph has a cycle, `cmd_add` fails with
CycleDetected carrying a concrete nonempty cycle, and the stage mapping it
leaves behind is exactly the original (the tentative insertion is rolled
back). -/
theorem cmd_add_cycle_safety (data : DagData) (taskId : String) (agent : Option String)
    (dependsOn : List String) (desc : String) (now : String)
    (hclosed : ∀ p ∈ data.stages, ∀ d ∈ p.2.dependsOn.getD [], d ∈ stageKeys data.stages)
    (hfresh : taskId ∉ stageKeys data.stages)
    (hdeps : ∀ d ∈ dependsOn, d ∈ stageKeys data.stages) :
    (AcyclicStages data.stages →
      cmd_add data taskId agent dependsOn desc now =
        .ok { data with
          stages := (data.stages ++
            [(taskId, make_stage (agent.getD taskId) desc (some dependsOn))])
          updated := now } ∧
      AcyclicStages (data.stages ++
        [(taskId, make_stage (agent.getD taskId) desc (some dependsOn))])) ∧
    (¬ AcyclicStages (data.stages ++
        [(taskId, make_stage (agent.getD taskId) desc (some dependsOn))]) →
      ∃ cyc, cmd_add data taskId agent dependsOn desc now = .cycleDetected cyc data ∧
        cyc ≠ [] ∧
        isCycleList (data.stages ++
          [(taskId, make_stage (agent.getD taskId) desc (some dependsOn))]) cyc) := by
  have hdeps' : ∀ d ∈ (make_stage (agent.getD taskId) desc (some dependsOn)).dependsOn.getD [],
      d ∈ stageKeys data.stages := by
    simpa [make_stage] using hdeps
  have hfind : dependsOn.find? (fun d => decide (d ∉ stageKeys data.stages)) = none := by
    rw [List.find?_eq_none]
    intro x hx
    simp [hdeps x hx]
  have hunfold := cmd_add_unfold data taskId agent dependsOn desc now hfresh hfind
  constructor
  · intro hacyc
    have hacyc1 : AcyclicStages (data.stages ++
        [(taskId, make_stage (agent.getD taskId) desc (some dependsOn))]) :=
      acyclic_insert hclosed hfresh hdeps' hacyc
    have hdet : detect_cycles (data.stages ++
        [(taskId, make_stage (agent.getD taskId) desc (some dependsOn))]) = [] :=
      (detect_cycles_spec _).1.mpr hacyc1
    refine ⟨?_, hacyc1⟩
    rw [hunfold, hdet]
    rfl
  · intro hcyc
    have hdet : detect_cycles (data.stages ++
        [(taskId, make_stage (agent.getD taskId) desc (some dependsOn))]) ≠ [] := by
      intro he
      exact hcyc ((detect_cycles_spec _).1.mp he)
    refine ⟨detect_cycles (data.stages ++
      [(taskId, make_stage (agent.getD taskId) desc (some dependsOn))]), ?_, hdet,
      (detect_cycles_spec _).2 hdet⟩
    rw [hunfold, if_neg (by simpa [List.isEmpty_iff] using hdet),
      eraseP_append_fresh _ _ _ hfresh]

/-- Witness for C6: adding `y` depending on the existing task `x` to an
acyclic one-task mapping succeeds and stays acyclic. -/
theorem cmd_add_cycle_safety_witness :
    cmd_add { cmd_init_dag "p6" "" "" "t0" with stages := [("x", make_stage "x" "" (some []))] }
        "y" none ["x"] "" "t1" =
      .ok { cmd_init_dag "p6" "" "" "t0" with
        stages := ([("x", make_stage "x" "" (some []))] ++
          [("y", make_stage "y" "" (some ["x"]))])
        updated := "t1" } := by
  have hacyc : AcyclicStages [("x", make_stage "x" "" (some []))] :=
    ((detect_cycles_spec [("x", make_stage "x" "" (some []))]).1.mp (by decide))
  exact ((cmd_add_cycle_safety
    { cmd_init_dag "p6" "" "" "t0" with stages := [("x", make_stage "x" "" (some []))] }
    "y" none ["x"] "" "t1" (by decide) (by decide) (by decide)).1 hacyc).1

end TeamTasks
